import Mathlib

/-!
Verification of the Arabic morphological engine (AVL root index, pattern
hash table, Arabic text utilities, root classifier, morphology engine).

Strings are modelled as lists of characters (`Str`); Python's string
comparison `<` is lexicographic comparison of Unicode code points,
modelled by `strLt`.  Python `None` results are modelled with `Option`;
exceptions that the source catches are modelled by `Option` results.
-/

/-- Strings, modelled as lists of Unicode characters. -/
abbrev Str := List Char

/-- Python string comparison `s < t`: lexicographic on code points,
a proper prefix is smaller. -/
def strLt : Str → Str → Bool
  | [], [] => false
  | [], _ :: _ => true
  | _ :: _, [] => false
  | a :: s, b :: t => if a < b then true else if b < a then false else strLt s t

theorem strLt_irrefl (s : Str) : strLt s s = false := by
  induction s with
  | nil => rfl
  | cons a s ih => simp [strLt, ih]

theorem strLt_asymm {s t : Str} (h : strLt s t = true) : strLt t s = false := by
  induction s generalizing t with
  | nil =>
    cases t with
    | nil => simpa [strLt] using h
    | cons b t => rfl
  | cons a s ih =>
    cases t with
    | nil => simp [strLt] at h
    | cons b t =>
      by_cases hab : a < b
      · simp [strLt, hab, asymm hab, (ne_of_lt hab).symm, not_lt_of_lt hab]
      · by_cases hba : b < a
        · simp [strLt, hab, hba] at h
        · have hs : strLt s t = true := by simpa [strLt, hab, hba] using h
          simp [strLt, hab, hba, ih hs]

theorem strLt_trans {s t u : Str} (h₁ : strLt s t = true) (h₂ : strLt t u = true) :
    strLt s u = true := by
  induction s generalizing t u with
  | nil =>
    cases u with
    | nil => cases t with
      | nil => simp [strLt] at h₁
      | cons b t => simp [strLt] at h₂
    | cons c u => rfl
  | cons a s ih =>
    cases t with
    | nil => simp [strLt] at h₁
    | cons b t =>
      cases u with
      | nil => simp [strLt] at h₂
      | cons c u =>
        by_cases hab : a < b
        · by_cases hbc : b < c
          · simp [strLt, lt_trans hab hbc]
          · by_cases hcb : c < b
            · simp [strLt, hbc, hcb] at h₂
            · have hbc' : b = c := le_antisymm (not_lt.mp hcb) (not_lt.mp hbc)
              subst hbc'
              simp [strLt, hab]
        · by_cases hba : b < a
          · simp [strLt, hab, hba] at h₁
          · have hab' : a = b := le_antisymm (not_lt.mp hba) (not_lt.mp hab)
            subst hab'
            have hs : strLt s t = true := by simpa [strLt] using h₁
            by_cases hac : a < c
            · simp [strLt, hac]
            · by_cases hca : c < a
              · simp [strLt, hac, hca] at h₂
              · have hac' : a = c := le_antisymm (not_lt.mp hca) (not_lt.mp hac)
                subst hac'
                have ht : strLt t u = true := by simpa [strLt] using h₂
                simp [strLt, ih hs ht]

theorem strLt_total {s t : Str} (h₁ : strLt s t = false) (h₂ : strLt t s = false) :
    s = t := by
  induction s generalizing t with
  | nil =>
    cases t with
    | nil => rfl
    | cons b t => simp [strLt] at h₁
  | cons a s ih =>
    cases t with
    | nil => simp [strLt] at h₂
    | cons b t =>
      by_cases hab : a < b
      · simp [strLt, hab] at h₁
      · by_cases hba : b < a
        · simp [strLt, hba] at h₂
        · have hab' : a = b := le_antisymm (not_lt.mp hba) (not_lt.mp hab)
          subst hab'
          have hs : strLt s t = false := by simpa [strLt, lt_irrefl] using h₁
          have ht : strLt t s = false := by simpa [strLt, lt_irrefl] using h₂
          rw [ih hs ht]

theorem strLt_ne {s t : Str} (h : strLt s t = true) : s ≠ t := by
  intro he; subst he; simp [strLt_irrefl] at h

/-! ## Character tables (from `arabic_utils.py`)

All characters are written with Unicode escapes; the comments give the
code points of the letters as they appear in the source. -/

/-- `ArabicUtils.ARABIC_LETTERS`: 28 base letters, 6 hamza forms,
4 other letters, 5 Persian extensions (43 characters). -/
def arabicLetters : List Char :=
  [ 'ا', 'ب', 'ت', 'ث', 'ج', 'ح', 'خ',
    'د', 'ذ', 'ر', 'ز', 'س', 'ش', 'ص',
    'ض', 'ط', 'ظ', 'ع', 'غ', 'ف', 'ق',
    'ك', 'ل', 'م', 'ن', 'ه', 'و', 'ي',
    'ء', 'آ', 'أ', 'إ', 'ئ', 'ؤ',
    'ة', 'ى', 'ٱ', 'ە',
    'پ', 'چ', 'ژ', 'گ', 'ڤ' ]

/-- `ArabicUtils.NORMALIZATION_MAP` (aggressive folding). -/
def normalizationMap : List (Char × Char) :=
  [ ('آ', 'ا'), ('أ', 'ا'), ('إ', 'ا'),
    ('ٱ', 'ا'), ('ى', 'ي'), ('ة', 'ه'),
    ('ؤ', 'و'), ('ئ', 'ي') ]

/-- The non-aggressive folding pairs used in `normalize_arabic`. -/
def nonAggressiveMap : List (Char × Char) :=
  [ ('آ', 'ا'), ('إ', 'ا'), ('ٱ', 'ا'),
    ('ى', 'ي'), ('ة', 'ه') ]

/-- `ArabicUtils.DIACRITICS`: the eleven tashkeel marks (includes shadda). -/
def diacritics : List Char :=
  [ 'ً', 'ٌ', 'ٍ', 'َ', 'ُ', 'ِ',
    'ّ', 'ْ', 'ٓ', 'ٔ', 'ٕ' ]

/-- The shadda mark. -/
def shaddaChar : Char := 'ّ'

/-- `ArabicUtils.is_diacritic`: tashkeel or shadda. -/
def isDiacritic (c : Char) : Bool := c ∈ diacritics || c = shaddaChar

/-- Characters of the Arabic Unicode block `؀`–`ۿ`
(the class kept by the regex in `normalize_arabic`). -/
def isArabicBlock (c : Char) : Bool := 0x600 ≤ c.toNat && c.toNat ≤ 0x6FF

/-- Python whitespace (`\s` in a str regex / `str.strip`). -/
def isPyWhitespace (c : Char) : Bool :=
  c = ' ' || c = '\t' || c = '\n' || c = '\x0b' || c = '\x0c' || c = '\r' ||
  c = '\u001c' || c = '\u001d' || c = '\u001e' || c = '\u001f' ||
  c = '\u0085' || c = ' ' || c = ' ' ||
  (' ' ≤ c && c ≤ ' ') ||
  c = ' ' || c = ' ' || c = ' ' || c = ' ' || c = '　'

/-! ## Text normalizer (`arabic_utils.py`) -/

/-- `ArabicUtils.expand_shadda`: a letter followed by shadda is doubled,
the shadda is consumed; other characters are copied. -/
def expandShadda : Str → Str
  | [] => []
  | [a] => [a]
  | a :: b :: rest =>
    if b = shaddaChar then a :: a :: expandShadda rest
    else a :: expandShadda (b :: rest)

theorem expandShadda_length (s : Str) : (expandShadda s).length = s.length := by
  induction s using expandShadda.induct <;> simp_all [expandShadda]

/-- A string without shadda marks expands to itself. -/
theorem expandShadda_eq_self {s : Str} (h : shaddaChar ∉ s) : expandShadda s = s := by
  induction s using expandShadda.induct <;> simp_all [expandShadda]

/-- Apply a sequence of single-character `str.replace` folds. -/
def applyFoldMap (m : List (Char × Char)) (s : Str) : Str :=
  m.foldl (fun acc p => acc.map (fun c => if c = p.1 then p.2 else c)) s

/-- Strip leading and trailing Python whitespace (`str.strip`). -/
def pyStrip (s : Str) : Str :=
  ((s.dropWhile isPyWhitespace).reverse.dropWhile isPyWhitespace).reverse

/-- `ArabicUtils.normalize_arabic text aggressive expand_shadda`:
shadda expansion (optional), diacritic removal, letter folding
(aggressive or not), removal of characters outside the Arabic block
(whitespace kept), strip. -/
def normalizeArabic (text : Str) (aggressive : Bool) (expandFlag : Bool) : Str :=
  if text = [] then []
  else
    let t := if expandFlag then expandShadda text else text
    let t := t.filter (fun c => !(c ∈ diacritics))
    let t := if aggressive then applyFoldMap normalizationMap t
             else applyFoldMap nonAggressiveMap t
    let t := t.filter (fun c => isArabicBlock c || isPyWhitespace c)
    pyStrip t

/-- `ArabicUtils.is_valid_root`: expand shadda, require exactly three
characters, each an Arabic letter or a diacritic. -/
def isValidRoot (root : Str) : Bool :=
  if root = [] then false
  else
    let e := expandShadda root
    if e.length ≠ 3 then false
    else e.all (fun c => c ∈ arabicLetters || isDiacritic c)

/-! ## Pattern application and matching (`arabic_utils.py`) -/

/-- Python `char.isdigit()` together with `int(char)`, for the digit
characters that can occur in Arabic-script input: ASCII digits and the
Arabic-Indic digit ranges.  Other characters yield `none` (not digits). -/
def pyDigitVal (c : Char) : Option Nat :=
  if '0' ≤ c ∧ c ≤ '9' then some (c.toNat - 48)
  else if 0x660 ≤ c.toNat ∧ c.toNat ≤ 0x669 then some (c.toNat - 0x660)
  else if 0x6F0 ≤ c.toNat ∧ c.toNat ≤ 0x6F9 then some (c.toNat - 0x6F0)
  else none

/-- The emission loop of `ArabicUtils.apply_pattern` over the template:
a digit emits the corresponding letter of the expanded root (positions
1–3; anything else raises, modelled by `none`), any other character is
emitted literally.  `e` is the expanded root, known to have length 3,
so `getD` never falls back to its default. -/
def applyPatternAux (e : Str) : Str → Option Str
  | [] => some []
  | c :: rest =>
    match pyDigitVal c with
    | some p =>
      if 1 ≤ p ∧ p ≤ 3 then (applyPatternAux e rest).map (fun w => e.getD (p - 1) 'a' :: w)
      else none
    | none => (applyPatternAux e rest).map (fun w => c :: w)

/-- `ArabicUtils.apply_pattern`: expand the shadda of the root, require
exactly three letters (else a `ValueError`, modelled by `none`), then
substitute the template. -/
def applyPattern (root tpl : Str) : Option Str :=
  let e := expandShadda root
  if e.length ≠ 3 then none
  else applyPatternAux e tpl

/-- `ArabicUtils.find_pattern_match`: regenerate the word and compare
under non-aggressive normalization, then aggressive normalization, then
raw equality; any exception (a failed generation) means no match. -/
def findPatternMatch (word root tpl : Str) : Bool :=
  match applyPattern root tpl with
  | none => false
  | some generated =>
    if normalizeArabic word false true = normalizeArabic generated false true then true
    else if normalizeArabic word true true = normalizeArabic generated true true then true
    else word = generated

/-! ## Template validation (`pattern_manager.py`, `hash_table.py`) -/

/-- The distinct outcomes (messages) of
`PatternManager.validate_template_syntax`. -/
inductive TemplateMsg where
  | emptyTemplate : TemplateMsg
  | wrongCount : Nat → TemplateMsg
  | notAllMarkers : TemplateMsg
  | duplicateMarkers : TemplateMsg
  | invalidChar : Char → TemplateMsg
  | templateValid : TemplateMsg
deriving DecidableEq

/-- `PatternManager.validate_template_syntax`: empty templates are
rejected; the digits among `1`,`2`,`3` are collected, there must be
exactly three of them, sorting them must give `[1, 2, 3]`, they must be
pairwise distinct, and every character must be one of the three markers
or an Arabic letter. -/
def validateTemplateSyntax (tpl : Str) : Bool × TemplateMsg :=
  if tpl = [] then (false, .emptyTemplate)
  else
    let rootPositions := (tpl.filter (fun c => c ∈ (['1', '2', '3'] : List Char))).map
      (fun c => c.toNat - 48)
    if rootPositions.length ≠ 3 then (false, .wrongCount rootPositions.length)
    else if rootPositions.insertionSort (· ≤ ·) ≠ [1, 2, 3] then (false, .notAllMarkers)
    else if rootPositions.dedup.length ≠ 3 then (false, .duplicateMarkers)
    else
      match tpl.find? (fun c => !(c ∈ (['1', '2', '3'] : List Char) || c ∈ arabicLetters)) with
      | some c => (false, .invalidChar c)
      | none => (true, .templateValid)

/-- `HashTable._validate_template`: nonempty and exactly three
characters among `1`,`2`,`3` (no letter check, repeats allowed). -/
def hashValidateTemplate (tpl : Str) : Bool :=
  if tpl = [] then false
  else (tpl.filter (fun c => c ∈ (['1', '2', '3'] : List Char))).length == 3

/-! ## The AVL tree of roots (`avl_tree.py`)

A tree value is either `leaf` (Python `None`) or a node carrying the
fields of `AVLNode`: the root string, the derivative list, the usage
frequency and the stored height. -/

/-- A derivative record `{word, pattern, frequency}` stored on a node. -/
structure Deriv where
  word : Str
  pattern : Str
  frequency : Nat
deriving DecidableEq

/-- The tree of `AVLNode`s; `leaf` is Python's `None`. -/
inductive AVLTree where
  | leaf : AVLTree
  | node (left : AVLTree) (root : Str) (derivatives : List Deriv)
         (frequency : Nat) (height : Nat) (right : AVLTree) : AVLTree
deriving DecidableEq

open AVLTree in
/-- `AVLTree._get_height`: stored height, 0 for `None`. -/
def getHeight : AVLTree → Nat
  | .leaf => 0
  | .node _ _ _ _ h _ => h

/-- `AVLTree._get_balance`: stored left height minus stored right height. -/
def getBalance : AVLTree → Int
  | .leaf => 0
  | .node l _ _ _ _ r => (getHeight l : Int) - (getHeight r : Int)

/-- The key of a nonempty tree (`node.root`); Python would raise an
`AttributeError` on `None`, which the callers' balance guards make
unreachable, so the `leaf` value is arbitrary. -/
def rootKey : AVLTree → Str
  | .leaf => []
  | .node _ k _ _ _ _ => k

/-- `AVLTree._right_rotate`, heights of the two rotated nodes
recomputed from stored child heights; other shapes are unreachable. -/
def rightRotate : AVLTree → AVLTree
  | .node (.node t1 x dx fx _ t2) y dy fy _ t3 =>
    let newY := AVLTree.node t2 y dy fy (1 + max (getHeight t2) (getHeight t3)) t3
    AVLTree.node t1 x dx fx (1 + max (getHeight t1) (getHeight newY)) newY
  | t => t

/-- `AVLTree._left_rotate`, mirror image. -/
def leftRotate : AVLTree → AVLTree
  | .node t1 x dx fx _ (.node t2 y dy fy _ t3) =>
    let newX := AVLTree.node t1 x dx fx (1 + max (getHeight t1) (getHeight t2)) t2
    AVLTree.node newX y dy fy (1 + max (getHeight newX) (getHeight t3)) t3
  | t => t

/-- Steps 2–4 of `AVLTree._insert` after the recursive call: recompute
the height, read the balance factor and apply the four rotation cases,
whose guards compare the inserted key with the child keys. -/
def insertFix (l : AVLTree) (key : Str) (d : List Deriv) (f : Nat) (r : AVLTree)
    (k : Str) : AVLTree :=
  let h := 1 + max (getHeight l) (getHeight r)
  let n := AVLTree.node l key d f h r
  let balance : Int := (getHeight l : Int) - (getHeight r : Int)
  if balance > 1 ∧ strLt k (rootKey l) = true then rightRotate n
  else if balance < -1 ∧ strLt (rootKey r) k = true then leftRotate n
  else if balance > 1 ∧ strLt (rootKey l) k = true then
    rightRotate (AVLTree.node (leftRotate l) key d f h r)
  else if balance < -1 ∧ strLt k (rootKey r) = true then
    leftRotate (AVLTree.node l key d f h (rightRotate r))
  else n

/-- `AVLTree._insert`: BST descent by string comparison; an equal key
increments the node frequency and returns at once (heights untouched);
otherwise rebalance on the way back up. -/
def insertAux : AVLTree → Str → AVLTree
  | .leaf, k => AVLTree.node .leaf k [] 1 1 .leaf
  | .node l key d f h r, k =>
    if strLt k key then insertFix (insertAux l k) key d f r k
    else if strLt key k then insertFix l key d f (insertAux r k) k
    else AVLTree.node l key d (f + 1) h r

/-- `AVLTree.insert` (public): normalize, validate, then insert; an
invalid root is rejected with no mutation. -/
def AVLTree.insert (t : AVLTree) (s : Str) : AVLTree :=
  let normalizedRoot := normalizeArabic s false true
  if isValidRoot normalizedRoot = false then t
  else insertAux t normalizedRoot

/-- `AVLTree._search`: returns the subtree whose root node holds the
key (the Python function returns the node object). -/
def searchTree : AVLTree → Str → Option AVLTree
  | .leaf, _ => none
  | .node l key d f h r, k =>
    if k = key then some (AVLTree.node l key d f h r)
    else if strLt k key then searchTree l k
    else searchTree r k

/-- `AVLTree.display_inorder`: the keys in in-order. -/
def inorder : AVLTree → List Str
  | .leaf => []
  | .node l key _ _ _ r => inorder l ++ key :: inorder r

/-- The in-order list of (key, frequency) pairs, used to reason about
occurrence counts. -/
def inorderKF : AVLTree → List (Str × Nat)
  | .leaf => []
  | .node l key _ f _ r => inorderKF l ++ (key, f) :: inorderKF r

/-- `AVLTree.count_nodes`. -/
def countNodes : AVLTree → Nat
  | .leaf => 0
  | .node l _ _ _ _ r => 1 + countNodes l + countNodes r

/-- `AVLTree.get_tree_height`: stored height of the root. -/
def getTreeHeight (t : AVLTree) : Nat := getHeight t

/-- Real (recomputed) height of a tree. -/
def realHeight : AVLTree → Nat
  | .leaf => 0
  | .node l _ _ _ _ r => 1 + max (realHeight l) (realHeight r)

/-- Every stored height equals the real height. -/
def heightsOk : AVLTree → Bool
  | .leaf => true
  | .node l _ _ _ h r =>
    heightsOk l && heightsOk r && (h == 1 + max (realHeight l) (realHeight r))

/-- Every node's real balance factor is in {-1, 0, 1}. -/
def balancedOk : AVLTree → Bool
  | .leaf => true
  | .node l _ _ _ _ r =>
    balancedOk l && balancedOk r &&
    (realHeight l ≤ realHeight r + 1 && realHeight r ≤ realHeight l + 1)

/-- Every node's stored balance factor (`_get_balance`) is in {-1,0,1}:
the claim's phrasing of the AVL invariant. -/
def balanceFactorsOk : AVLTree → Bool
  | .leaf => true
  | .node l _ _ _ _ r =>
    balanceFactorsOk l && balanceFactorsOk r &&
    (-1 ≤ getBalance (AVLTree.node l [] [] 0 0 r) &&
      getBalance (AVLTree.node l [] [] 0 0 r) ≤ 1)

/-- BST order: the in-order key sequence is strictly increasing. -/
def ordered (t : AVLTree) : Prop :=
  (inorder t).Pairwise (fun a b => strLt a b = true)

/-- `AVLNode.add_derivative`: bump the frequency of an existing
(word, pattern) record, else append a fresh record with frequency 1. -/
def addDeriv (ds : List Deriv) (w p : Str) : List Deriv :=
  match ds with
  | [] => [⟨w, p, 1⟩]
  | d :: rest =>
    if d.word = w ∧ d.pattern = p then ⟨d.word, d.pattern, d.frequency + 1⟩ :: rest
    else d :: addDeriv rest w p

/-- In-place `add_derivative` on the node that `search` returns,
modelled as a rebuild along the search path. -/
def addDerivativeInTree : AVLTree → Str → Str → Str → AVLTree
  | .leaf, _, _, _ => .leaf
  | .node l key d f h r, k, w, p =>
    if k = key then AVLTree.node l key (addDeriv d w p) f h r
    else if strLt k key then AVLTree.node (addDerivativeInTree l k w p) key d f h r
    else AVLTree.node l key d f h (addDerivativeInTree r k w p)

/-! ## In-order behaviour of insertion -/

/-- Effect of one `_insert` on the in-order (key, frequency) list:
place a fresh key at its sorted position with frequency 1, or bump the
frequency of an existing key. -/
def sortedInsKF (k : Str) : List (Str × Nat) → List (Str × Nat)
  | [] => [(k, 1)]
  | (x, fx) :: L =>
    if strLt k x then (k, 1) :: (x, fx) :: L
    else if strLt x k then (x, fx) :: sortedInsKF k L
    else (x, fx + 1) :: L

/-- Frequency lookup in a (key, frequency) list. -/
def lookupKF (L : List (Str × Nat)) (k : Str) : Option Nat :=
  (L.find? (fun p => decide (p.1 = k))).map Prod.snd

/-- Pairwise strict order on the keys of a (key, frequency) list. -/
def pairwiseKF (L : List (Str × Nat)) : Prop :=
  L.Pairwise (fun p q => strLt p.1 q.1 = true)

theorem inorder_eq_map_fst (t : AVLTree) : inorder t = (inorderKF t).map Prod.fst := by
  induction t with
  | leaf => rfl
  | node l key d f h r ihl ihr => simp [inorder, inorderKF, ihl, ihr]

theorem ordered_iff_pairwiseKF (t : AVLTree) : ordered t ↔ pairwiseKF (inorderKF t) := by
  rw [ordered, inorder_eq_map_fst, pairwiseKF, List.pairwise_map]

theorem rightRotate_inorderKF (t : AVLTree) : inorderKF (rightRotate t) = inorderKF t := by
  cases t with
  | leaf => rfl
  | node l y dy fy hy r =>
    cases l with
    | leaf => rfl
    | node t1 x dx fx hx t2 => simp [rightRotate, inorderKF]

theorem leftRotate_inorderKF (t : AVLTree) : inorderKF (leftRotate t) = inorderKF t := by
  cases t with
  | leaf => rfl
  | node l x dx fx hx r =>
    cases r with
    | leaf => rfl
    | node t2 y dy fy hy t3 => simp [leftRotate, inorderKF]

theorem insertFix_inorderKF (l : AVLTree) (key : Str) (d : List Deriv) (f : Nat)
    (r : AVLTree) (k : Str) :
    inorderKF (insertFix l key d f r k) = inorderKF l ++ (key, f) :: inorderKF r := by
  simp only [insertFix]
  split_ifs <;>
    simp [rightRotate_inorderKF, leftRotate_inorderKF, inorderKF]

theorem sortedInsKF_append_left {k key : Str} (hk : strLt k key = true)
    (A B : List (Str × Nat)) (f : Nat) :
    sortedInsKF k (A ++ (key, f) :: B) = sortedInsKF k A ++ (key, f) :: B := by
  induction A with
  | nil => simp [sortedInsKF, hk]
  | cons p A ih =>
    obtain ⟨x, fx⟩ := p
    by_cases hkx : strLt k x = true
    · simp [sortedInsKF, hkx]
    · by_cases hxk : strLt x k = true
      · simp [sortedInsKF, hkx, hxk, ih]
      · simp [sortedInsKF, hkx, hxk]

theorem sortedInsKF_append_right {k key : Str} (hk : strLt key k = true)
    (A B : List (Str × Nat)) (f : Nat) (hA : ∀ p ∈ A, strLt p.1 key = true) :
    sortedInsKF k (A ++ (key, f) :: B) = A ++ (key, f) :: sortedInsKF k B := by
  induction A with
  | nil => simp [sortedInsKF, strLt_asymm hk, hk]
  | cons p A ih =>
    obtain ⟨x, fx⟩ := p
    have hxkey : strLt x key = true := hA (x, fx) (by simp)
    have hxk : strLt x k = true := strLt_trans hxkey hk
    simp only [List.cons_append, sortedInsKF, strLt_asymm hxk, hxk]
    simp [ih (fun p hp => hA p (by simp [hp]))]

theorem sortedInsKF_append_mem {k : Str} (A B : List (Str × Nat)) (f : Nat)
    (hA : ∀ p ∈ A, strLt p.1 k = true) :
    sortedInsKF k (A ++ (k, f) :: B) = A ++ (k, f + 1) :: B := by
  induction A with
  | nil => simp [sortedInsKF, strLt_irrefl]
  | cons p A ih =>
    obtain ⟨x, fx⟩ := p
    have hxk : strLt x k = true := hA (x, fx) (by simp)
    simp only [List.cons_append, sortedInsKF, strLt_asymm hxk, hxk]
    simp [ih (fun p hp => hA p (by simp [hp]))]

theorem insertAux_inorderKF {t : AVLTree} (k : Str) (ht : ordered t) :
    inorderKF (insertAux t k) = sortedInsKF k (inorderKF t) := by
  induction t with
  | leaf => rfl
  | node l key d f h r ihl ihr =>
    rw [ordered_iff_pairwiseKF] at ht
    simp only [inorderKF, pairwiseKF, List.pairwise_append, List.pairwise_cons] at ht
    obtain ⟨hl, ⟨hkeyr, hr⟩, hmid⟩ := ht
    have hlkey : ∀ p ∈ inorderKF l, strLt p.1 key = true := by
      intro p hp; exact (hmid p hp (key, f) (by simp)).symm ▸
        (hmid p hp (key, f) (by simp))
    have hl' : ordered l := by
      rw [ordered_iff_pairwiseKF]; exact hl
    have hr' : ordered r := by
      rw [ordered_iff_pairwiseKF]; exact hr
    by_cases hk1 : strLt k key = true
    · simp only [insertAux, hk1, if_pos, insertFix_inorderKF, inorderKF]
      rw [ihl hl', sortedInsKF_append_left hk1]
    · by_cases hk2 : strLt key k = true
      · simp only [insertAux, hk1, hk2, if_neg, if_pos, Bool.false_eq_true,
          not_false_iff, insertFix_inorderKF, inorderKF]
        rw [ihr hr', sortedInsKF_append_right hk2 _ _ _ hlkey]
      · have : k = key := strLt_total (by simpa using hk1) (by simpa using hk2)
        subst this
        simp only [insertAux, hk1, hk2, Bool.false_eq_true, if_neg, not_false_iff,
          inorderKF]
        rw [sortedInsKF_append_mem _ _ _ hlkey]

theorem mem_map_fst_sortedInsKF {y k : Str} {L : List (Str × Nat)} :
    y ∈ (sortedInsKF k L).map Prod.fst ↔ y = k ∨ y ∈ L.map Prod.fst := by
  induction L with
  | nil => simp [sortedInsKF]
  | cons q L ih =>
    obtain ⟨x, fx⟩ := q
    by_cases hkx : strLt k x = true
    · simp [sortedInsKF, hkx]
      try tauto
    · by_cases hxk : strLt x k = true
      · simp [sortedInsKF, hkx, hxk, ih]
        try tauto
      · have : x = k := strLt_total (by simpa using hxk) (by simpa using hkx)
        subst this
        simp [sortedInsKF, hkx, hxk]
        try tauto

theorem pairwiseKF_sortedInsKF {k : Str} {L : List (Str × Nat)}
    (h : pairwiseKF L) : pairwiseKF (sortedInsKF k L) := by
  induction L with
  | nil => simp [sortedInsKF, pairwiseKF]
  | cons q L ih =>
    obtain ⟨x, fx⟩ := q
    rw [pairwiseKF, List.pairwise_cons] at h
    obtain ⟨hx, hL⟩ := h
    by_cases hkx : strLt k x = true
    · rw [pairwiseKF]
      simp only [sortedInsKF, hkx, if_pos]
      refine List.Pairwise.cons ?_ (List.Pairwise.cons hx hL)
      intro q hq
      rcases List.mem_cons.mp hq with rfl | hq'
      · exact hkx
      · exact strLt_trans hkx (hx q hq')
    · by_cases hxk : strLt x k = true
      · rw [pairwiseKF]
        simp only [sortedInsKF, hkx, hxk, Bool.false_eq_true, if_neg, if_pos,
          not_false_iff]
        refine List.Pairwise.cons ?_ (ih hL)
        intro q hq
        have hq1 : q.1 ∈ (sortedInsKF k L).map Prod.fst := List.mem_map_of_mem _ hq
        rcases mem_map_fst_sortedInsKF.mp hq1 with h' | h'
        · rw [h']; exact hxk
        · obtain ⟨q', hq', he⟩ := List.mem_map.mp h'
          have hxq : strLt (x, fx).1 q'.1 = true := hx q' hq'
          exact he ▸ hxq
      · have : x = k := strLt_total (by simpa using hxk) (by simpa using hkx)
        subst this
        rw [pairwiseKF]
        simp only [sortedInsKF, hkx, hxk, Bool.false_eq_true, if_neg, not_false_iff]
        exact List.Pairwise.cons hx hL

theorem ordered_insertAux {t : AVLTree} (k : Str) (ht : ordered t) :
    ordered (insertAux t k) := by
  rw [ordered_iff_pairwiseKF, insertAux_inorderKF k ht]
  exact pairwiseKF_sortedInsKF ((ordered_iff_pairwiseKF t).mp ht)

/-! ## Search, frequency and counting -/

/-- Frequency field of a node (`node.frequency`); 0 for `leaf`. -/
def nodeFreq : AVLTree → Nat
  | .leaf => 0
  | .node _ _ _ f _ _ => f

/-- Derivative list of a node; `[]` for `leaf`. -/
def nodeDerivs : AVLTree → List Deriv
  | .leaf => []
  | .node _ _ d _ _ _ => d

/-- The occurrence count `search(root).frequency`, `none` if absent. -/
def occurrenceCount (t : AVLTree) (k : Str) : Option Nat :=
  (searchTree t k).map nodeFreq

theorem lookupKF_none {L : List (Str × Nat)} {k : Str} (h : ∀ p ∈ L, ¬ (p.1 = k)) :
    lookupKF L k = none := by
  simp only [lookupKF, Option.map_eq_none', List.find?_eq_none]
  intro p hp
  simpa using h p hp

theorem lookupKF_sortedInsKF {k : Str} {L : List (Str × Nat)} (h : pairwiseKF L) :
    lookupKF (sortedInsKF k L) k = some ((lookupKF L k).getD 0 + 1) := by
  induction L with
  | nil => simp [sortedInsKF, lookupKF]
  | cons q L ih =>
    obtain ⟨x, fx⟩ := q
    rw [pairwiseKF, List.pairwise_cons] at h
    obtain ⟨hx, hL⟩ := h
    by_cases hkx : strLt k x = true
    · have hxne : ¬ (x = k) := fun he => strLt_ne hkx he.symm
      have htail : (L.find? (fun p => decide (p.1 = k))) = none := by
        rw [List.find?_eq_none]
        intro p hp
        simpa using fun he : p.1 = k => strLt_ne (strLt_trans hkx (hx p hp)) he.symm
      simp [sortedInsKF, hkx, lookupKF, List.find?_cons, hxne, htail]
    · by_cases hxk : strLt x k = true
      · have hxne : ¬ (x = k) := strLt_ne hxk
        have ih' := ih hL
        simp only [sortedInsKF, hkx, hxk, Bool.false_eq_true, if_neg, if_pos,
          not_false_iff]
        simp only [lookupKF, List.find?_cons] at ih' ⊢
        simpa [hxne] using ih'
      · have : x = k := strLt_total (by simpa using hxk) (by simpa using hkx)
        subst this
        simp [sortedInsKF, hkx, hxk, lookupKF, List.find?_cons]

theorem searchTree_eq_lookupKF {t : AVLTree} (k : Str) (ht : ordered t) :
    (searchTree t k).map nodeFreq = lookupKF (inorderKF t) k := by
  induction t with
  | leaf => rfl
  | node l key d f h r ihl ihr =>
    rw [ordered_iff_pairwiseKF] at ht
    simp only [inorderKF, pairwiseKF, List.pairwise_append, List.pairwise_cons] at ht
    obtain ⟨hl, ⟨hkeyr, hr⟩, hmid⟩ := ht
    have hlkey : ∀ p ∈ inorderKF l, strLt p.1 key = true := by
      intro p hp; exact hmid p hp (key, f) (by simp)
    have hl' : ordered l := (ordered_iff_pairwiseKF l).mpr hl
    have hr' : ordered r := (ordered_iff_pairwiseKF r).mpr hr
    by_cases hk0 : k = key
    · subst hk0
      have hnl : (inorderKF l).find? (fun p => decide (p.1 = k)) = none := by
        rw [List.find?_eq_none]
        intro p hp
        simpa using fun he : p.1 = k => strLt_ne (hlkey p hp) he
      simp [searchTree, lookupKF, inorderKF, List.find?_append, hnl,
        List.find?_cons, nodeFreq]
    · by_cases hk1 : strLt k key = true
      · simp only [searchTree, hk0, hk1, if_neg, if_pos, not_false_iff]
        rw [ihl hl']
        have hnr : ((key, f) :: inorderKF r).find? (fun p => decide (p.1 = k)) = none := by
          rw [List.find?_eq_none]
          intro p hp
          rcases List.mem_cons.mp hp with rfl | hp'
          · simpa using fun he : key = k => hk0 he.symm
          · simpa using fun he : p.1 = k =>
              strLt_ne (strLt_trans hk1 (hkeyr p hp')) he.symm
        simp only [lookupKF, inorderKF, List.find?_append, hnr, Option.or_none]
      · have hk2 : strLt key k = true := by
          rcases Bool.eq_false_or_eq_true (strLt key k) with h' | h'
          · exact h'
          · exact absurd (strLt_total (by simpa using hk1) h') hk0
        have hnl : (inorderKF l).find? (fun p => decide (p.1 = k)) = none := by
          rw [List.find?_eq_none]
          intro p hp
          simpa using fun he : p.1 = k => strLt_ne (strLt_trans (hlkey p hp) hk2) he
        have hkeyne : ¬ (key = k) := fun he => hk0 he.symm
        simp only [searchTree, hk0, hk1, Bool.false_eq_true, if_neg, not_false_iff]
        rw [ihr hr']
        simp [lookupKF, inorderKF, List.find?_append, hnl, List.find?_cons, hkeyne]

theorem countNodes_eq_length (t : AVLTree) : countNodes t = (inorderKF t).length := by
  induction t with
  | leaf => rfl
  | node l key d f h r ihl ihr =>
    simp [countNodes, inorderKF, ihl, ihr]
    omega

theorem length_sortedInsKF {k : Str} {L : List (Str × Nat)} (h : pairwiseKF L) :
    (sortedInsKF k L).length =
      if (lookupKF L k).isSome then L.length else L.length + 1 := by
  induction L with
  | nil => simp [sortedInsKF, lookupKF]
  | cons q L ih =>
    obtain ⟨x, fx⟩ := q
    rw [pairwiseKF, List.pairwise_cons] at h
    obtain ⟨hx, hL⟩ := h
    by_cases hkx : strLt k x = true
    · have hxne : ¬ (x = k) := fun he => strLt_ne hkx he.symm
      have htail : (L.find? (fun p => decide (p.1 = k))) = none := by
        rw [List.find?_eq_none]
        intro p hp
        simpa using fun he : p.1 = k => strLt_ne (strLt_trans hkx (hx p hp)) he.symm
      simp [sortedInsKF, hkx, lookupKF, List.find?_cons, hxne, htail]
    · by_cases hxk : strLt x k = true
      · have hxne : ¬ (x = k) := strLt_ne hxk
        have ih' := ih hL
        simp only [sortedInsKF, hkx, hxk, Bool.false_eq_true, if_neg, if_pos,
          not_false_iff, List.length_cons, lookupKF, List.find?_cons] at ih' ⊢
        simp only [hxne, decide_eq_false, ih']
        by_cases hs : ((L.find? (fun p => decide (p.1 = k))).map Prod.snd).isSome <;>
          simp [hs]
      · have : x = k := strLt_total (by simpa using hxk) (by simpa using hkx)
        subst this
        simp [sortedInsKF, hkx, hxk, lookupKF, List.find?_cons]

/-! ## Preservation of the AVL balance invariant -/

theorem getHeight_eq {t : AVLTree} (h : heightsOk t = true) :
    getHeight t = realHeight t := by
  cases t with
  | leaf => rfl
  | node l key d f hh r =>
    simp only [heightsOk, Bool.and_eq_true, beq_iff_eq] at h
    simp [getHeight, realHeight, h.2]

theorem insertFix_eq_node {l r : AVLTree} {y k : Str} {d : List Deriv} {f : Nat}
    (h1 : (getHeight l : Int) - getHeight r ≤ 1)
    (h2 : (getHeight r : Int) - getHeight l ≤ 1) :
    insertFix l y d f r k =
      AVLTree.node l y d f (1 + max (getHeight l) (getHeight r)) r := by
  simp only [insertFix]
  split_ifs with c1 c2 c3 c4
  · exact absurd c1.1 (by omega)
  · exact absurd c2.1 (by omega)
  · exact absurd c3.1 (by omega)
  · exact absurd c4.1 (by omega)
  · rfl

theorem insertFix_eq_LL {l r : AVLTree} {y k : Str} {d : List Deriv} {f : Nat}
    (hb : (getHeight l : Int) - getHeight r > 1) (hk : strLt k (rootKey l) = true) :
    insertFix l y d f r k =
      rightRotate (AVLTree.node l y d f (1 + max (getHeight l) (getHeight r)) r) := by
  simp only [insertFix]
  rw [if_pos ⟨hb, hk⟩]

theorem insertFix_eq_LR {l r : AVLTree} {y k : Str} {d : List Deriv} {f : Nat}
    (hb : (getHeight l : Int) - getHeight r > 1) (hk : strLt (rootKey l) k = true) :
    insertFix l y d f r k =
      rightRotate (AVLTree.node (leftRotate l) y d f
        (1 + max (getHeight l) (getHeight r)) r) := by
  simp only [insertFix]
  rw [if_neg, if_neg, if_pos ⟨hb, hk⟩]
  · rintro ⟨c, _⟩; omega
  · rintro ⟨_, hc⟩; exact absurd hc (by simp [strLt_asymm hk])

theorem insertFix_eq_RR {l r : AVLTree} {y k : Str} {d : List Deriv} {f : Nat}
    (hb : (getHeight l : Int) - getHeight r < -1) (hk : strLt (rootKey r) k = true) :
    insertFix l y d f r k =
      leftRotate (AVLTree.node l y d f (1 + max (getHeight l) (getHeight r)) r) := by
  simp only [insertFix]
  rw [if_neg, if_pos ⟨hb, hk⟩]
  rintro ⟨c, _⟩; omega

theorem insertFix_eq_RL {l r : AVLTree} {y k : Str} {d : List Deriv} {f : Nat}
    (hb : (getHeight l : Int) - getHeight r < -1) (hk : strLt k (rootKey r) = true) :
    insertFix l y d f r k =
      leftRotate (AVLTree.node l y d f (1 + max (getHeight l) (getHeight r))
        (rightRotate r)) := by
  simp only [insertFix]
  rw [if_neg, if_neg, if_neg, if_pos ⟨hb, hk⟩]
  · rintro ⟨c, _⟩; omega
  · rintro ⟨_, hc⟩; exact absurd hc (by simp [strLt_asymm hk])
  · rintro ⟨c, _⟩; omega

/-- Shape information available when an insertion increased the height
of a (formerly AVL) subtree: a fresh singleton, or a root whose heavier
side is the side the new key compares to. -/
def growCond (t t' : AVLTree) (k : Str) : Prop :=
  match t' with
  | .leaf => False
  | .node l x _ _ _ r =>
    t = .leaf ∨ (strLt k x = true ∧ realHeight l = realHeight r + 1) ∨
      (strLt x k = true ∧ realHeight r = realHeight l + 1)


theorem getHeight_node (l : AVLTree) (k : Str) (d : List Deriv) (f h : Nat)
    (r : AVLTree) : getHeight (.node l k d f h r) = h := rfl

theorem realHeight_node (l : AVLTree) (k : Str) (d : List Deriv) (f h : Nat)
    (r : AVLTree) :
    realHeight (.node l k d f h r) = 1 + max (realHeight l) (realHeight r) := rfl

theorem heightsOk_node {l : AVLTree} {k : Str} {d : List Deriv} {f h : Nat}
    {r : AVLTree} :
    heightsOk (.node l k d f h r) = true ↔
      heightsOk l = true ∧ heightsOk r = true ∧
        h = 1 + max (realHeight l) (realHeight r) := by
  simp only [heightsOk, Bool.and_eq_true, beq_iff_eq, and_assoc]

theorem balancedOk_node {l : AVLTree} {k : Str} {d : List Deriv} {f h : Nat}
    {r : AVLTree} :
    balancedOk (.node l k d f h r) = true ↔
      balancedOk l = true ∧ balancedOk r = true ∧
        realHeight l ≤ realHeight r + 1 ∧ realHeight r ≤ realHeight l + 1 := by
  simp only [balancedOk, Bool.and_eq_true, decide_eq_true_eq, and_assoc]

theorem insertAux_avl (k : Str) (t : AVLTree) (hh : heightsOk t = true)
    (hb : balancedOk t = true) :
    heightsOk (insertAux t k) = true ∧ balancedOk (insertAux t k) = true ∧
    (realHeight (insertAux t k) = realHeight t ∨
      (realHeight (insertAux t k) = realHeight t + 1 ∧
        growCond t (insertAux t k) k)) := by
  induction t with
  | leaf =>
    refine ⟨by simp [insertAux, heightsOk, realHeight],
      by simp [insertAux, balancedOk, realHeight], Or.inr ⟨?_, ?_⟩⟩
    · simp [insertAux, realHeight]
    · simp [insertAux, growCond]
  | node l key d f h r ihl ihr =>
    rw [heightsOk_node] at hh
    obtain ⟨hhl, hhr, hstored⟩ := hh
    rw [balancedOk_node] at hb
    obtain ⟨hbl, hbr, hble, hbri⟩ := hb
    have hgr : getHeight r = realHeight r := getHeight_eq hhr
    have hgl : getHeight l = realHeight l := getHeight_eq hhl
    by_cases hk1 : strLt k key = true
    · -- insertion goes left
      obtain ⟨ih1, ih2, ih3⟩ := ihl hhl hbl
      simp only [insertAux, hk1, if_pos]
      have hgl' : getHeight (insertAux l k) = realHeight (insertAux l k) :=
        getHeight_eq ih1
      rcases ih3 with hsame | ⟨hgrow, hcond⟩
      · -- left height unchanged: no rotation
        have e := insertFix_eq_node (l := insertAux l k) (r := r) (y := key)
          (k := k) (d := d) (f := f) (by rw [hgl', hgr, hsame]; omega)
          (by rw [hgl', hgr, hsame]; omega)
        rw [e]
        refine ⟨?_, ?_, Or.inl ?_⟩
        · rw [heightsOk_node]
          exact ⟨ih1, hhr, by rw [hgl', hgr, hsame]⟩
        · rw [balancedOk_node]
          exact ⟨ih2, hbr, by omega, by omega⟩
        · rw [realHeight_node, realHeight_node, hsame]
      · -- left height grew by one
        by_cases hcase : realHeight l = realHeight r + 1
        · -- grew on the already-heavy side: a rotation fires
          cases hl' : insertAux l k with
          | leaf => rw [hl'] at hgrow; simp only [realHeight] at hgrow; omega
          | node ll x dxx fxx hxx lr =>
            rw [hl'] at hgrow hcond ih1 ih2
            have hlne : l ≠ .leaf := by
              intro he; rw [he] at hcase; simp [realHeight] at hcase
            rw [heightsOk_node] at ih1
            obtain ⟨hll, hlr, hxxst⟩ := ih1
            rw [balancedOk_node] at ih2
            obtain ⟨hbll, hblr, hbx1, hbx2⟩ := ih2
            rw [realHeight_node] at hgrow
            have hgll : getHeight ll = realHeight ll := getHeight_eq hll
            have hglr : getHeight lr = realHeight lr := getHeight_eq hlr
            rcases hcond with he | ⟨hkx, hdir⟩ | ⟨hxk, hdir⟩
            · exact absurd he hlne
            · -- left-left case: single right rotation
              have e := insertFix_eq_LL (l := .node ll x dxx fxx hxx lr) (r := r)
                (y := key) (k := k) (d := d) (f := f)
                (by rw [getHeight_node, hxxst, hgr]; omega)
                (by simpa [rootKey] using hkx)
              rw [e]
              simp only [rightRotate, getHeight_node]
              rw [hgll, hglr, hgr]
              refine ⟨?_, ?_, Or.inl ?_⟩
              · simp only [heightsOk_node, realHeight_node]
                exact ⟨hll, ⟨hlr, hhr, by first | trivial | omega⟩, by first | trivial | omega⟩
              · simp only [balancedOk_node, realHeight_node]
                exact ⟨hbll, ⟨hblr, hbr, by first | trivial | omega, by first | trivial | omega⟩, by first | trivial | omega, by first | trivial | omega⟩
              · simp only [realHeight_node]; omega
            · -- left-right case: double rotation
              cases lr with
              | leaf =>
                simp only [realHeight] at hdir
                omega
              | node lrl z dz fz hz lrr =>
                rw [heightsOk_node] at hlr
                obtain ⟨hlrl, hlrr, hzst⟩ := hlr
                rw [balancedOk_node] at hblr
                obtain ⟨hblrl, hblrr, hbz1, hbz2⟩ := hblr
                rw [realHeight_node] at hdir hgrow hbx1 hbx2
                have hglrl : getHeight lrl = realHeight lrl := getHeight_eq hlrl
                have hglrr : getHeight lrr = realHeight lrr := getHeight_eq hlrr
                have e := insertFix_eq_LR
                  (l := .node ll x dxx fxx hxx (.node lrl z dz fz hz lrr)) (r := r)
                  (y := key) (k := k) (d := d) (f := f)
                  (by rw [getHeight_node, hxxst, realHeight_node, hgr]; omega)
                  (by simpa [rootKey] using hxk)
                rw [e]
                simp only [leftRotate, rightRotate, getHeight_node]
                rw [hgll, hglrl, hglrr, hgr]
                refine ⟨?_, ?_, Or.inl ?_⟩
                · simp only [heightsOk_node, realHeight_node]
                  exact ⟨⟨hll, hlrl, by first | trivial | omega⟩, ⟨hlrr, hhr, by first | trivial | omega⟩, by first | trivial | omega⟩
                · simp only [balancedOk_node, realHeight_node]
                  exact ⟨⟨hbll, hblrl, by first | trivial | omega, by first | trivial | omega⟩,
                    ⟨hblrr, hbr, by first | trivial | omega, by first | trivial | omega⟩,
                    by first | trivial | omega, by first | trivial | omega⟩
                · simp only [realHeight_node]; omega
        · -- grew on the light or even side: still balanced, no rotation
          have e := insertFix_eq_node (l := insertAux l k) (r := r) (y := key)
            (k := k) (d := d) (f := f) (by rw [hgl', hgr, hgrow]; omega)
            (by rw [hgl', hgr, hgrow]; omega)
          rw [e]
          refine ⟨?_, ?_, ?_⟩
          · rw [heightsOk_node]
            exact ⟨ih1, hhr, by rw [hgl', hgr]⟩
          · rw [balancedOk_node]
            exact ⟨ih2, hbr, by omega, by omega⟩
          · by_cases heq : realHeight l = realHeight r
            · refine Or.inr ⟨?_, ?_⟩
              · simp only [realHeight_node]; omega
              · simp only [growCond]
                exact Or.inr (Or.inl ⟨hk1, by omega⟩)
            · refine Or.inl ?_
              simp only [realHeight_node]; omega
    · by_cases hk2 : strLt key k = true
      · -- insertion goes right (mirror image)
        obtain ⟨ih1, ih2, ih3⟩ := ihr hhr hbr
        simp only [insertAux, hk1, hk2, Bool.false_eq_true, if_neg, if_pos,
          not_false_iff]
        have hgr' : getHeight (insertAux r k) = realHeight (insertAux r k) :=
          getHeight_eq ih1
        rcases ih3 with hsame | ⟨hgrow, hcond⟩
        · have e := insertFix_eq_node (l := l) (r := insertAux r k) (y := key)
            (k := k) (d := d) (f := f) (by rw [hgl, hgr', hsame]; omega)
            (by rw [hgl, hgr', hsame]; omega)
          rw [e]
          refine ⟨?_, ?_, Or.inl ?_⟩
          · rw [heightsOk_node]
            exact ⟨hhl, ih1, by rw [hgl, hgr', hsame]⟩
          · rw [balancedOk_node]
            exact ⟨hbl, ih2, by omega, by omega⟩
          · rw [realHeight_node, realHeight_node, hsame]
        · by_cases hcase : realHeight r = realHeight l + 1
          · cases hr' : insertAux r k with
            | leaf => rw [hr'] at hgrow; simp only [realHeight] at hgrow; omega
            | node rl x dxx fxx hxx rr =>
              rw [hr'] at hgrow hcond ih1 ih2
              have hrne : r ≠ .leaf := by
                intro he; rw [he] at hcase; simp [realHeight] at hcase
              rw [heightsOk_node] at ih1
              obtain ⟨hrl, hrr, hxxst⟩ := ih1
              rw [balancedOk_node] at ih2
              obtain ⟨hbrl, hbrr, hbx1, hbx2⟩ := ih2
              rw [realHeight_node] at hgrow
              have hgrl : getHeight rl = realHeight rl := getHeight_eq hrl
              have hgrr : getHeight rr = realHeight rr := getHeight_eq hrr
              rcases hcond with he | ⟨hkx, hdir⟩ | ⟨hxk, hdir⟩
              · exact absurd he hrne
              · -- right-left case: double rotation
                cases rl with
                | leaf =>
                  simp only [realHeight] at hdir
                  omega
                | node rll z dz fz hz rlr =>
                  rw [heightsOk_node] at hrl
                  obtain ⟨hrll, hrlr, hzst⟩ := hrl
                  rw [balancedOk_node] at hbrl
                  obtain ⟨hbrll, hbrlr, hbz1, hbz2⟩ := hbrl
                  rw [realHeight_node] at hdir hgrow hbx1 hbx2
                  have hgrll : getHeight rll = realHeight rll := getHeight_eq hrll
                  have hgrlr : getHeight rlr = realHeight rlr := getHeight_eq hrlr
                  have e := insertFix_eq_RL (l := l)
                    (r := .node (.node rll z dz fz hz rlr) x dxx fxx hxx rr)
                    (y := key) (k := k) (d := d) (f := f)
                    (by rw [getHeight_node, hxxst, realHeight_node, hgl]; omega)
                    (by simpa [rootKey] using hkx)
                  rw [e]
                  simp only [rightRotate, leftRotate, getHeight_node]
                  rw [hgl, hgrll, hgrlr, hgrr]
                  refine ⟨?_, ?_, Or.inl ?_⟩
                  · simp only [heightsOk_node, realHeight_node]
                    exact ⟨⟨hhl, hrll, by first | trivial | omega⟩, ⟨hrlr, hrr, by first | trivial | omega⟩, by first | trivial | omega⟩
                  · simp only [balancedOk_node, realHeight_node]
                    exact ⟨⟨hbl, hbrll, by first | trivial | omega, by first | trivial | omega⟩,
                      ⟨hbrlr, hbrr, by first | trivial | omega, by first | trivial | omega⟩,
                      by first | trivial | omega, by first | trivial | omega⟩
                  · simp only [realHeight_node]; omega
              · -- right-right case: single left rotation
                have e := insertFix_eq_RR (l := l)
                  (r := .node rl x dxx fxx hxx rr)
                  (y := key) (k := k) (d := d) (f := f)
                  (by rw [getHeight_node, hxxst, hgl]; omega)
                  (by simpa [rootKey] using hxk)
                rw [e]
                simp only [leftRotate, getHeight_node]
                rw [hgl, hgrl, hgrr]
                refine ⟨?_, ?_, Or.inl ?_⟩
                · simp only [heightsOk_node, realHeight_node]
                  exact ⟨⟨hhl, hrl, by first | trivial | omega⟩, hrr, by first | trivial | omega⟩
                · simp only [balancedOk_node, realHeight_node]
                  exact ⟨⟨hbl, hbrl, by first | trivial | omega, by first | trivial | omega⟩, hbrr, by first | trivial | omega, by first | trivial | omega⟩
                · simp only [realHeight_node]; omega
          · have e := insertFix_eq_node (l := l) (r := insertAux r k) (y := key)
              (k := k) (d := d) (f := f) (by rw [hgl, hgr', hgrow]; omega)
              (by rw [hgl, hgr', hgrow]; omega)
            rw [e]
            refine ⟨?_, ?_, ?_⟩
            · rw [heightsOk_node]
              exact ⟨hhl, ih1, by rw [hgl, hgr']⟩
            · rw [balancedOk_node]
              exact ⟨hbl, ih2, by omega, by omega⟩
            · by_cases heq : realHeight l = realHeight r
              · refine Or.inr ⟨?_, ?_⟩
                · simp only [realHeight_node]; omega
                · simp only [growCond]
                  exact Or.inr (Or.inr ⟨hk2, by omega⟩)
              · refine Or.inl ?_
                simp only [realHeight_node]; omega
      · -- equal key: frequency bump, no structural change
        have : k = key := strLt_total (by simpa using hk1) (by simpa using hk2)
        subst this
        simp only [insertAux, hk1, hk2, Bool.false_eq_true, if_neg, not_false_iff]
        refine ⟨?_, ?_, Or.inl rfl⟩
        · rw [heightsOk_node]
          exact ⟨hhl, hhr, hstored⟩
        · rw [balancedOk_node]
          exact ⟨hbl, hbr, hble, hbri⟩

/-! ## Trees built by sequences of public inserts -/

/-- The Root Index after a sequence of `insert` calls on an empty tree. -/
def buildTree (inputs : List Str) : AVLTree :=
  inputs.foldl AVLTree.insert .leaf

theorem insert_inv {t : AVLTree} (s : Str) (hh : heightsOk t = true)
    (hb : balancedOk t = true) (ho : ordered t) :
    heightsOk (AVLTree.insert t s) = true ∧ balancedOk (AVLTree.insert t s) = true ∧
      ordered (AVLTree.insert t s) := by
  unfold AVLTree.insert
  by_cases hv : isValidRoot (normalizeArabic s false true) = false
  · simp only [hv, if_pos]
    exact ⟨hh, hb, ho⟩
  · simp only [hv, if_neg, not_false_iff]
    obtain ⟨h1, h2, _⟩ := insertAux_avl (normalizeArabic s false true) t hh hb
    exact ⟨h1, h2, ordered_insertAux _ ho⟩

theorem foldl_insert_inv (inputs : List Str) :
    ∀ t : AVLTree, heightsOk t = true → balancedOk t = true → ordered t →
      heightsOk (inputs.foldl AVLTree.insert t) = true ∧
      balancedOk (inputs.foldl AVLTree.insert t) = true ∧
      ordered (inputs.foldl AVLTree.insert t) := by
  induction inputs with
  | nil => exact fun t hh hb ho => ⟨hh, hb, ho⟩
  | cons s inputs ih =>
    intro t hh hb ho
    obtain ⟨h1, h2, h3⟩ := insert_inv s hh hb ho
    exact ih (AVLTree.insert t s) h1 h2 h3

theorem buildTree_inv (inputs : List Str) :
    heightsOk (buildTree inputs) = true ∧ balancedOk (buildTree inputs) = true ∧
      ordered (buildTree inputs) := by
  refine foldl_insert_inv inputs .leaf rfl rfl ?_
  simp [ordered, inorder]

theorem insert_eq_of_valid {t : AVLTree} {s : Str}
    (hv : isValidRoot (normalizeArabic s false true) = true) :
    AVLTree.insert t s = insertAux t (normalizeArabic s false true) := by
  simp only [AVLTree.insert, hv]
  simp

theorem insert_eq_of_invalid {t : AVLTree} {s : Str}
    (hv : isValidRoot (normalizeArabic s false true) = false) :
    AVLTree.insert t s = t := by
  simp only [AVLTree.insert, hv]
  simp

theorem mem_inorder_insert {t : AVLTree} (s x : Str) (ht : ordered t) :
    x ∈ inorder (AVLTree.insert t s) ↔
      (isValidRoot (normalizeArabic s false true) = true ∧
        x = normalizeArabic s false true) ∨ x ∈ inorder t := by
  cases hv : isValidRoot (normalizeArabic s false true) with
  | false =>
    rw [insert_eq_of_invalid hv]
    simp
  | true =>
    rw [insert_eq_of_valid hv, inorder_eq_map_fst, insertAux_inorderKF _ ht,
      mem_map_fst_sortedInsKF, ← inorder_eq_map_fst]
    simp

theorem mem_inorder_foldl (inputs : List Str) :
    ∀ t : AVLTree, heightsOk t = true → balancedOk t = true → ordered t → ∀ x : Str,
      (x ∈ inorder (inputs.foldl AVLTree.insert t) ↔
        x ∈ inorder t ∨ ∃ s ∈ inputs,
          isValidRoot (normalizeArabic s false true) = true ∧
            normalizeArabic s false true = x) := by
  induction inputs with
  | nil => simp
  | cons s inputs ih =>
    intro t hh hb ho x
    obtain ⟨h1, h2, h3⟩ := insert_inv s hh hb ho
    rw [List.foldl_cons, ih (AVLTree.insert t s) h1 h2 h3 x,
      mem_inorder_insert s x ho]
    simp only [List.mem_cons]
    constructor
    · rintro ((⟨hva, he⟩ | h) | ⟨s', hs', hv', he'⟩)
      · exact Or.inr ⟨s, Or.inl rfl, hva, he.symm⟩
      · exact Or.inl h
      · exact Or.inr ⟨s', Or.inr hs', hv', he'⟩
    · rintro (h | ⟨s', hs' | hs', hv', he'⟩)
      · exact Or.inl (Or.inr h)
      · subst hs'
        exact Or.inl (Or.inl ⟨hv', he'.symm⟩)
      · exact Or.inr ⟨s', hs', hv', he'⟩

/-- C9: after any sequence of `insert` calls, `display_inorder` is the
strictly sorted list of exactly the distinct normalized roots that were
successfully (validly) inserted. -/
theorem C9_sorted_traversal (inputs : List Str) :
    (inorder (buildTree inputs)).Pairwise (fun a b => strLt a b = true) ∧
    ∀ x : Str, x ∈ inorder (buildTree inputs) ↔
      ∃ s ∈ inputs, isValidRoot (normalizeArabic s false true) = true ∧
        normalizeArabic s false true = x := by
  obtain ⟨hh, hb, ho⟩ := buildTree_inv inputs
  refine ⟨ho, fun x => ?_⟩
  have := mem_inorder_foldl inputs .leaf rfl rfl (by simp [ordered, inorder]) x
  simpa [inorder, buildTree] using this

/-- C10: `insert` normalizes and validates first; invalid input mutates
nothing; re-inserting a stored root adds no node and bumps its
occurrence count by exactly one; a fresh valid root adds exactly one
node with occurrence count 1. -/
theorem C10_insert_postcondition (t : AVLTree) (s : Str) (ho : ordered t) :
    (isValidRoot (normalizeArabic s false true) = false → AVLTree.insert t s = t) ∧
    (∀ f0 : Nat, isValidRoot (normalizeArabic s false true) = true →
      occurrenceCount t (normalizeArabic s false true) = some f0 →
      countNodes (AVLTree.insert t s) = countNodes t ∧
      occurrenceCount (AVLTree.insert t s) (normalizeArabic s false true) =
        some (f0 + 1)) ∧
    (isValidRoot (normalizeArabic s false true) = true →
      occurrenceCount t (normalizeArabic s false true) = none →
      countNodes (AVLTree.insert t s) = countNodes t + 1 ∧
      occurrenceCount (AVLTree.insert t s) (normalizeArabic s false true) =
        some 1) := by
  set nr := normalizeArabic s false true with hnr
  refine ⟨?_, ?_, ?_⟩
  · intro hv
    exact insert_eq_of_invalid (by rw [← hnr]; exact hv)
  · intro f0 hv hocc
    rw [insert_eq_of_valid (by rw [← hnr]; exact hv), ← hnr]
    have hlook : lookupKF (inorderKF t) nr = some f0 := by
      rw [← searchTree_eq_lookupKF nr ho, ← hocc]; rfl
    have hpw : pairwiseKF (inorderKF t) := (ordered_iff_pairwiseKF t).mp ho
    constructor
    · rw [countNodes_eq_length, countNodes_eq_length, insertAux_inorderKF nr ho,
        length_sortedInsKF hpw, hlook]
      simp
    · rw [occurrenceCount, searchTree_eq_lookupKF nr (ordered_insertAux nr ho),
        insertAux_inorderKF nr ho, lookupKF_sortedInsKF hpw, hlook]
      rfl
  · intro hv hocc
    rw [insert_eq_of_valid (by rw [← hnr]; exact hv), ← hnr]
    have hlook : lookupKF (inorderKF t) nr = none := by
      rw [← searchTree_eq_lookupKF nr ho, ← hocc]; rfl
    have hpw : pairwiseKF (inorderKF t) := (ordered_iff_pairwiseKF t).mp ho
    constructor
    · rw [countNodes_eq_length, countNodes_eq_length, insertAux_inorderKF nr ho,
        length_sortedInsKF hpw, hlook]
      simp
    · rw [occurrenceCount, searchTree_eq_lookupKF nr (ordered_insertAux nr ho),
        insertAux_inorderKF nr ho, lookupKF_sortedInsKF hpw, hlook]
      rfl

/-! ## The AVL height bound -/

theorem fib_realHeight_le {t : AVLTree} (hb : balancedOk t = true) :
    Nat.fib (realHeight t + 2) ≤ countNodes t + 1 := by
  induction t with
  | leaf => simp [realHeight, countNodes]
  | node l key d f h r ihl ihr =>
    rw [balancedOk_node] at hb
    obtain ⟨hbl, hbr, h1, h2⟩ := hb
    have il := ihl hbl
    have ir := ihr hbr
    rw [realHeight_node]
    simp only [countNodes]
    rcases le_total (realHeight l) (realHeight r) with hab | hab
    · rw [max_eq_right hab]
      have he : 1 + realHeight r + 2 = (realHeight r + 1) + 2 := by omega
      rw [he, Nat.fib_add_two]
      have hm := Nat.fib_mono (show realHeight r + 1 ≤ realHeight l + 2 by omega)
      have he2 : realHeight r + 1 + 1 = realHeight r + 2 := by omega
      rw [he2]
      omega
    · rw [max_eq_left hab]
      have he : 1 + realHeight l + 2 = (realHeight l + 1) + 2 := by omega
      rw [he, Nat.fib_add_two]
      have hm := Nat.fib_mono (show realHeight l + 1 ≤ realHeight r + 2 by omega)
      have he2 : realHeight l + 1 + 1 = realHeight l + 2 := by omega
      rw [he2]
      omega

theorem mem_applyFoldMap {m : List (Char × Char)} {s : Str} {c : Char}
    (h : c ∈ applyFoldMap m s) : c ∈ s ∨ ∃ p ∈ m, c = p.2 := by
  induction m generalizing s with
  | nil => exact Or.inl h
  | cons p m ih =>
    rcases ih (s := s.map (fun c => if c = p.1 then p.2 else c)) h with h' | ⟨q, hq, he⟩
    · obtain ⟨c0, hc0, he⟩ := List.mem_map.mp h'
      by_cases hc : c0 = p.1
      · simp only [hc, if_pos] at he
        exact Or.inr ⟨p, by simp, he.symm⟩
      · simp only [hc, if_neg, not_false_iff] at he
        exact Or.inl (he ▸ hc0)
    · exact Or.inr ⟨q, by simp [hq], he⟩

theorem mem_pyStrip {s : Str} {c : Char} (h : c ∈ pyStrip s) : c ∈ s := by
  unfold pyStrip at h
  rw [List.mem_reverse] at h
  have h1 := (List.dropWhile_sublist _).mem h
  rw [List.mem_reverse] at h1
  exact (List.dropWhile_sublist _).mem h1

theorem normalize_no_diacritic {s : Str} {aggressive expandFlag : Bool} {c : Char}
    (hc : c ∈ normalizeArabic s aggressive expandFlag) : ¬ c ∈ diacritics := by
  unfold normalizeArabic at hc
  by_cases hs : s = []
  · simp [hs] at hc
  · simp only [hs, if_neg, not_false_iff] at hc
    have h1 := mem_pyStrip hc
    have h2 := (List.mem_filter.mp h1).1
    cases aggressive with
    | true =>
      simp only [if_pos] at h2
      rcases mem_applyFoldMap h2 with h3 | ⟨p, hp, he⟩
      · have := (List.mem_filter.mp h3).2
        simpa using this
      · have hall : ∀ p ∈ normalizationMap, ¬ p.2 ∈ diacritics := by decide
        subst he
        exact hall p hp
    | false =>
      simp only [Bool.false_eq_true, if_neg, not_false_iff] at h2
      rcases mem_applyFoldMap h2 with h3 | ⟨p, hp, he⟩
      · have := (List.mem_filter.mp h3).2
        simpa using this
      · have hall : ∀ p ∈ nonAggressiveMap, ¬ p.2 ∈ diacritics := by decide
        subst he
        exact hall p hp

theorem valid_normalized_shape {s : Str}
    (hv : isValidRoot (normalizeArabic s false true) = true) :
    (normalizeArabic s false true).length = 3 ∧
      ∀ c ∈ normalizeArabic s false true, c ∈ arabicLetters := by
  set nr := normalizeArabic s false true with hnr
  have hnil : ¬ (nr = []) := by
    intro he; rw [he] at hv; simp [isValidRoot] at hv
  have hnsh : shaddaChar ∉ nr := by
    intro hm
    exact normalize_no_diacritic (hnr ▸ hm) (by decide)
  have hexp : expandShadda nr = nr := expandShadda_eq_self hnsh
  unfold isValidRoot at hv
  rw [if_neg hnil, hexp] at hv
  by_cases hlen : nr.length ≠ 3
  · rw [if_pos hlen] at hv; cases hv
  · rw [if_neg hlen] at hv
    refine ⟨by omega, fun c hc => ?_⟩
    have := List.all_eq_true.mp hv c hc
    have hnd : ¬ c ∈ diacritics := normalize_no_diacritic (hnr ▸ hc)
    simp only [Bool.or_eq_true, decide_eq_true_eq] at this
    rcases this with h' | h'
    · exact h'
    · exfalso
      simp only [isDiacritic, Bool.or_eq_true, decide_eq_true_eq] at h'
      rcases h' with h' | h'
      · exact hnd h'
      · exact hnd (h' ▸ (by decide : shaddaChar ∈ diacritics))

theorem count_le_of_valid {t : AVLTree} (ht : ordered t)
    (hval : ∀ x ∈ inorder t, x.length = 3 ∧ ∀ c ∈ x, c ∈ arabicLetters) :
    countNodes t ≤ 79507 := by
  have hcnt : countNodes t = (inorder t).length := by
    rw [countNodes_eq_length, inorder_eq_map_fst, List.length_map]
  have hnd : (inorder t).Nodup := List.Pairwise.imp (fun h => strLt_ne h) ht
  set m := (inorder t).map (fun x => (x.getD 0 'a', x.getD 1 'a', x.getD 2 'a'))
    with hm
  have hmn : m.Nodup := by
    rw [hm]
    refine List.Nodup.map_on ?_ hnd
    intro x hx y hy he
    obtain ⟨hx3, _⟩ := hval x hx
    obtain ⟨hy3, _⟩ := hval y hy
    obtain ⟨a, b, c, rfl⟩ := List.length_eq_three.mp hx3
    obtain ⟨a', b', c', rfl⟩ := List.length_eq_three.mp hy3
    simp only [List.getD, List.getElem?_cons_zero, List.getElem?_cons_succ,
      Option.getD_some, Prod.mk.injEq] at he
    simp_all
  have hsub : m.toFinset ⊆
      arabicLetters.toFinset ×ˢ arabicLetters.toFinset ×ˢ arabicLetters.toFinset := by
    intro q hq
    rw [List.mem_toFinset, hm] at hq
    obtain ⟨x, hx, rfl⟩ := List.mem_map.mp hq
    obtain ⟨hx3, hxc⟩ := hval x hx
    obtain ⟨a, b, c, rfl⟩ := List.length_eq_three.mp hx3
    simp only [Finset.mem_product, List.mem_toFinset, List.getD,
      List.getElem?_cons_zero, List.getElem?_cons_succ, Option.getD_some]
    exact ⟨hxc a (by simp), hxc b (by simp), hxc c (by simp)⟩
  have hcard : m.toFinset.card ≤ 79507 := by
    have := Finset.card_le_card hsub
    rw [Finset.card_product, Finset.card_product] at this
    have h43 : arabicLetters.toFinset.card = 43 := by decide
    rw [h43] at this
    omega
  rw [hcnt, show (inorder t).length = m.length by rw [hm, List.length_map],
    ← List.toFinset_card_of_nodup hmn]
  exact hcard

theorem realHeight_le_23 {t : AVLTree} (hb : balancedOk t = true)
    (hcnt : countNodes t ≤ 79507) : realHeight t ≤ 23 := by
  by_contra h'
  have hm := Nat.fib_mono (show 26 ≤ realHeight t + 2 by omega)
  have hf := fib_realHeight_le hb
  have h26 : Nat.fib 26 = 121393 := by decide
  omega

set_option maxHeartbeats 2000000 in
theorem pow_fact : ∀ h : Nat, h ≤ 23 →
    2 ^ (25 * h) < 2 ^ 25 * (Nat.fib (h + 2) + 1) ^ 36 := by decide

theorem height_bound_from_pow {h n : Nat}
    (hpow : 2 ^ (25 * h) < 2 ^ 25 * (n + 2) ^ 36) :
    (h : ℤ) ≤ ⌈(1.44 : ℝ) * Real.logb 2 ((n : ℝ) + 2)⌉ := by
  have hcast : ((2 : ℝ)) ^ (25 * h) < (2 : ℝ) ^ 25 * ((n : ℝ) + 2) ^ 36 := by
    exact_mod_cast hpow
  clear hpow
  have h2 : (0 : ℝ) < Real.log 2 := Real.log_pos (by norm_num)
  have hx : (0 : ℝ) < (n : ℝ) + 2 := by positivity
  have hlog := Real.log_lt_log (by positivity) hcast
  rw [Real.log_pow, Real.log_mul (by positivity) (by positivity), Real.log_pow,
    Real.log_pow] at hlog
  have key : ((h : ℝ) - 1) * Real.log 2 < (36 / 25) * Real.log ((n : ℝ) + 2) := by
    push_cast at hlog
    nlinarith [hlog]
  have key2 : ((h : ℝ) - 1) < (36 / 25) * (Real.log ((n : ℝ) + 2) / Real.log 2) := by
    rw [← mul_div_assoc]
    exact (lt_div_iff₀ h2).mpr key
  have key3 : ((h : ℝ) - 1) < (1.44 : ℝ) * Real.logb 2 ((n : ℝ) + 2) := by
    rw [Real.logb, show (1.44 : ℝ) = 36 / 25 by norm_num]
    exact key2
  have hceil : ((h : ℤ) - 1) < ⌈(1.44 : ℝ) * Real.logb 2 ((n : ℝ) + 2)⌉ := by
    rw [Int.lt_ceil]
    push_cast
    linarith
  omega

theorem balanceFactorsOk_of {t : AVLTree} (hh : heightsOk t = true)
    (hb : balancedOk t = true) : balanceFactorsOk t = true := by
  induction t with
  | leaf => rfl
  | node l key d f h r ihl ihr =>
    rw [heightsOk_node] at hh
    obtain ⟨hhl, hhr, _⟩ := hh
    rw [balancedOk_node] at hb
    obtain ⟨hbl, hbr, h1, h2⟩ := hb
    have hgl := getHeight_eq hhl
    have hgr := getHeight_eq hhr
    simp only [balanceFactorsOk, Bool.and_eq_true, decide_eq_true_eq, getBalance]
    rw [hgl, hgr]
    exact ⟨⟨ihl hhl hbl, ihr hhr hbr⟩, by omega, by omega⟩

/-- C1: after any sequence of `insert` calls the balance factor of
every node is in {-1, 0, 1}, and the tree height is at most
⌈1.44·log₂(n+2)⌉ where n is the number of nodes. -/
theorem C1_avl_invariant (inputs : List Str) :
    balanceFactorsOk (buildTree inputs) = true ∧
    (getTreeHeight (buildTree inputs) : ℤ) ≤
      ⌈(1.44 : ℝ) * Real.logb 2 ((countNodes (buildTree inputs) : ℝ) + 2)⌉ := by
  obtain ⟨hh, hb, ho⟩ := buildTree_inv inputs
  have hval : ∀ x ∈ inorder (buildTree inputs),
      x.length = 3 ∧ ∀ c ∈ x, c ∈ arabicLetters := by
    intro x hx
    have hmem := (mem_inorder_foldl inputs .leaf rfl rfl
      (by simp [ordered, inorder]) x).mp (by simpa [buildTree] using hx)
    rcases hmem with h' | ⟨s, _, hv, he⟩
    · simp [inorder] at h'
    · subst he
      exact valid_normalized_shape hv
  have hcnt := count_le_of_valid ho hval
  have hht : realHeight (buildTree inputs) ≤ 23 := realHeight_le_23 hb hcnt
  have hfib := fib_realHeight_le hb
  have hpow0 := pow_fact _ hht
  have hmono : (Nat.fib (realHeight (buildTree inputs) + 2) + 1) ^ 36 ≤
      (countNodes (buildTree inputs) + 2) ^ 36 :=
    Nat.pow_le_pow_left (by omega) 36
  have hpow : 2 ^ (25 * realHeight (buildTree inputs)) <
      2 ^ 25 * (countNodes (buildTree inputs) + 2) ^ 36 :=
    lt_of_lt_of_le hpow0 (Nat.mul_le_mul_left _ hmono)
  have hbound := height_bound_from_pow hpow
  refine ⟨balanceFactorsOk_of hh hb, ?_⟩
  rw [getTreeHeight, getHeight_eq hh]
  exact hbound

/-- The root `كتب` (k-t-b). -/
def rootKTB : Str := ['ك', 'ت', 'ب']

/-- Witness for C10 at the empty tree and the root `كتب`. -/
theorem C10_insert_postcondition_witness :
    countNodes (AVLTree.insert .leaf rootKTB) = countNodes (.leaf : AVLTree) + 1 ∧
    occurrenceCount (AVLTree.insert .leaf rootKTB)
        (normalizeArabic rootKTB false true) = some 1 :=
  (C10_insert_postcondition .leaf rootKTB (by simp [ordered, inorder])).2.2
    (by decide) (by decide)

/-! ## The pattern hash table (`hash_table.py`)

Buckets are chained lists; `HashTable V` carries the fields of the
Python class.  `insert` checks the load factor `size / capacity ≥ 0.75`
before placing the entry; the comparison of the two integers is modelled
exactly as `4 * size ≥ 3 * capacity`.  Python's `_resize` re-inserts the
old entries through `insert`; during a rehash the load factor of the
doubled table never reaches the threshold again (old size < 3/4 of the
old capacity + 1 ≤ 3/8 of the new capacity + 1), so the re-insertion is
embedded as direct placement (`insertRaw`). -/

structure HashTable (V : Type) where
  capacity : Nat
  size : Nat
  buckets : List (List (Str × V))
deriving DecidableEq

/-- `HashTable.hash_function`: polynomial rolling hash, base 31, reduced
mod capacity at every step. -/
def hashFunction (cap : Nat) (key : Str) : Nat :=
  key.foldl (fun h c => (h * 31 + c.toNat) % cap) 0

/-- Traverse a bucket chain: update the value of an existing key, or
append a fresh entry at the end; the flag reports whether an entry was
added (Python increments `size` in that case). -/
def chainInsert (k : Str) (v : V) : List (Str × V) → List (Str × V) × Bool
  | [] => ([(k, v)], true)
  | (k', v') :: rest =>
    if k' = k then ((k', v) :: rest, false)
    else
      let rec' := chainInsert k v rest
      ((k', v') :: rec'.1, rec'.2)

/-- Place an entry in its bucket (no resize check). -/
def insertRaw (t : HashTable V) (k : Str) (v : V) : HashTable V :=
  let i := hashFunction t.capacity k
  let res := chainInsert k v (t.buckets.getD i [])
  { capacity := t.capacity,
    size := if res.2 then t.size + 1 else t.size,
    buckets := t.buckets.set i res.1 }

/-- `HashTable._resize`: double the capacity and rehash every entry, in
bucket order. -/
def HashTable.resize (t : HashTable V) : HashTable V :=
  t.buckets.flatten.foldl (fun acc kv => insertRaw acc kv.1 kv.2)
    { capacity := t.capacity * 2, size := 0,
      buckets := List.replicate (t.capacity * 2) [] }

/-- `HashTable.insert`: resize first once the load factor reaches 0.75,
then place the entry. -/
def HashTable.insert (t : HashTable V) (k : Str) (v : V) : HashTable V :=
  if 3 * t.capacity ≤ 4 * t.size then insertRaw t.resize k v
  else insertRaw t k v

/-- Search a bucket chain for a key. -/
def chainSearch (k : Str) : List (Str × V) → Option V
  | [] => none
  | (k', v') :: rest => if k' = k then some v' else chainSearch k rest

/-- `HashTable.search`. -/
def HashTable.search (t : HashTable V) (k : Str) : Option V :=
  chainSearch k (t.buckets.getD (hashFunction t.capacity k) [])

/-- A fresh table (`initial_capacity = 50`). -/
def initTable (V : Type) : HashTable V :=
  ⟨50, 0, List.replicate 50 []⟩

/-- `HashTable.get_all_patterns`: all (key, value) pairs in bucket order. -/
def getAllPatterns (t : HashTable V) : List (Str × V) :=
  t.buckets.flatten

/-- The value most recently inserted for a key in a sequence of
(key, value) insertions, `none` if the key never occurs. -/
def lastInserted (ops : List (Str × V)) (k : Str) : Option V :=
  ops.foldl (fun acc p => if p.1 = k then some p.2 else acc) none

theorem hashFunction_lt {cap : Nat} (hc : 0 < cap) (k : Str) :
    hashFunction cap k < cap := by
  have aux : ∀ (l : Str) (acc : Nat), acc < cap →
      l.foldl (fun h c => (h * 31 + c.toNat) % cap) acc < cap := by
    intro l
    induction l with
    | nil => exact fun acc h => h
    | cons c l ih =>
      intro acc _
      exact ih _ (Nat.mod_lt _ hc)
  exact aux k 0 hc

theorem chainSearch_chainInsert_self (k : Str) (v : V) (ch : List (Str × V)) :
    chainSearch k (chainInsert k v ch).1 = some v := by
  induction ch with
  | nil => simp [chainInsert, chainSearch]
  | cons p ch ih =>
    obtain ⟨k', v'⟩ := p
    by_cases hk : k' = k
    · simp [chainInsert, hk, chainSearch]
    · simp [chainInsert, hk, chainSearch, ih]

theorem chainSearch_chainInsert_other {k k' : Str} (hne : ¬ (k' = k)) (v : V)
    (ch : List (Str × V)) :
    chainSearch k' (chainInsert k v ch).1 = chainSearch k' ch := by
  induction ch with
  | nil =>
    simp only [chainInsert, chainSearch]
    rw [if_neg (fun h : k = k' => hne h.symm)]
  | cons p ch ih =>
    obtain ⟨k0, v0⟩ := p
    by_cases hk : k0 = k
    · subst hk
      have hk0 : ¬ (k0 = k') := fun h => hne h.symm
      simp only [chainInsert, if_pos rfl, chainSearch]
      rw [if_neg hk0, if_neg hk0]
    · have e1 : chainInsert k v ((k0, v0) :: ch) =
          ((k0, v0) :: (chainInsert k v ch).1, (chainInsert k v ch).2) := by
        simp only [chainInsert]
        rw [if_neg hk]
      rw [e1]
      by_cases hk0 : k0 = k'
      · simp only [chainSearch]
        rw [if_pos hk0, if_pos hk0]
      · simp only [chainSearch]
        rw [if_neg hk0, if_neg hk0, ih]

theorem chainInsert_mem {k : Str} {v : V} {ch : List (Str × V)} {p : Str × V}
    (h : p ∈ (chainInsert k v ch).1) : p.1 = k ∨ p ∈ ch := by
  induction ch with
  | nil => simp [chainInsert] at h; simp [h]
  | cons q ch ih =>
    obtain ⟨k0, v0⟩ := q
    by_cases hk : k0 = k
    · subst hk
      simp only [chainInsert, if_pos rfl] at h
      rcases List.mem_cons.mp h with rfl | h'
      · exact Or.inl rfl
      · exact Or.inr (by simp [h'])
    · simp only [chainInsert, hk, if_neg, not_false_iff] at h
      rcases List.mem_cons.mp h with rfl | h'
      · exact Or.inr (by simp)
      · rcases ih h' with h'' | h''
        · exact Or.inl h''
        · exact Or.inr (by simp [h''])

theorem chainInsert_added_iff (k : Str) (v : V) (ch : List (Str × V)) :
    (chainInsert k v ch).2 = true ↔ ¬ (k ∈ ch.map Prod.fst) := by
  induction ch with
  | nil =>
    simp only [chainInsert, List.map_nil, List.not_mem_nil, not_false_iff, iff_true]
  | cons q ch ih =>
    obtain ⟨k0, v0⟩ := q
    by_cases hk : k0 = k
    · subst hk
      simp only [chainInsert, if_pos rfl, List.map_cons, List.mem_cons]
      constructor
      · intro h; cases h
      · intro h; exact absurd (Or.inl trivial) h
    · simp only [chainInsert, hk, if_neg, not_false_iff, List.map_cons, List.mem_cons]
      rw [ih]
      constructor
      · intro h hmem
        rcases hmem with he | hmem
        · exact hk he.symm
        · exact h hmem
      · intro h hmem
        exact h (Or.inr hmem)

theorem chainInsert_keys (k : Str) (v : V) (ch : List (Str × V)) :
    (chainInsert k v ch).1.map Prod.fst =
      if (chainInsert k v ch).2 then ch.map Prod.fst ++ [k] else ch.map Prod.fst := by
  induction ch with
  | nil => simp only [chainInsert, List.map_cons, List.map_nil, if_pos,
      List.nil_append]
  | cons q ch ih =>
    obtain ⟨k0, v0⟩ := q
    by_cases hk : k0 = k
    · have e1 : chainInsert k v ((k0, v0) :: ch) = ((k0, v) :: ch, false) := by
        simp only [chainInsert]
        rw [if_pos hk]
      rw [e1, if_neg (show ¬ ((((k0, v) :: ch : List (Str × V)), false).2 = true)
        from Bool.false_ne_true)]
      rfl
    · simp only [chainInsert, hk, if_neg, not_false_iff, List.map_cons]
      rw [ih]
      by_cases hb : (chainInsert k v ch).2 = true
      · rw [if_pos hb, if_pos hb, List.cons_append]
      · rw [if_neg hb, if_neg hb]

theorem getD_set_self {α : Type _} {l : List α} {i : Nat} (h : i < l.length)
    (a d : α) : (l.set i a).getD i d = a := by
  rw [List.getD_eq_getElem?_getD,
    List.getElem?_eq_getElem (by rw [List.length_set]; exact h)]
  simp [List.getElem_set]

theorem getD_set_ne {α : Type _} {l : List α} {i j : Nat} (hne : i ≠ j)
    (a d : α) : (l.set i a).getD j d = l.getD j d := by
  rw [List.getD_eq_getElem?_getD, List.getD_eq_getElem?_getD,
    List.getElem?_set_ne hne]

theorem getD_replicate_nil {β : Type _} (n i : Nat) :
    (List.replicate n ([] : List β)).getD i [] = [] := by
  rw [List.getD_eq_getElem?_getD, List.getElem?_replicate]
  by_cases h : i < n <;> simp [h]

/-- Structural invariant of the hash table: positive capacity, one
bucket per slot, every entry lives in the bucket its key hashes to, and
bucket keys are distinct. -/
def HInv (t : HashTable V) : Prop :=
  0 < t.capacity ∧ t.buckets.length = t.capacity ∧
  (∀ i, i < t.capacity → ∀ p ∈ t.buckets.getD i [],
    hashFunction t.capacity p.1 = i) ∧
  (∀ i, i < t.capacity → ((t.buckets.getD i []).map Prod.fst).Nodup)

theorem insertRaw_capacity (t : HashTable V) (k : Str) (v : V) :
    (insertRaw t k v).capacity = t.capacity := rfl

theorem insertRaw_length (t : HashTable V) (k : Str) (v : V) :
    (insertRaw t k v).buckets.length = t.buckets.length := by
  simp [insertRaw, List.length_set]

theorem insertRaw_search (t : HashTable V) (k : Str) (v : V)
    (hc : 0 < t.capacity) (hl : t.buckets.length = t.capacity) (k' : Str) :
    (insertRaw t k v).search k' = if k' = k then some v else t.search k' := by
  have hik : hashFunction t.capacity k < t.buckets.length := by
    rw [hl]; exact hashFunction_lt hc k
  by_cases hk : k' = k
  · subst hk
    simp only [HashTable.search, insertRaw, insertRaw_capacity, if_pos rfl]
    rw [getD_set_self hik]
    exact chainSearch_chainInsert_self _ _ _
  · simp only [HashTable.search, insertRaw, insertRaw_capacity, hk, if_neg,
      not_false_iff]
    by_cases hj : hashFunction t.capacity k' = hashFunction t.capacity k
    · rw [hj, getD_set_self hik]
      exact chainSearch_chainInsert_other hk v _
    · rw [getD_set_ne (fun h => hj h.symm)]

theorem insertRaw_HInv {t : HashTable V} (k : Str) (v : V) (h : HInv t) :
    HInv (insertRaw t k v) := by
  obtain ⟨hc, hl, hhome, hnd⟩ := h
  have hik : hashFunction t.capacity k < t.buckets.length := by
    rw [hl]; exact hashFunction_lt hc k
  refine ⟨hc, by rw [insertRaw_length, hl, insertRaw_capacity], ?_, ?_⟩
  · intro i hi p hp
    simp only [insertRaw, insertRaw_capacity] at hp ⊢
    by_cases hji : hashFunction t.capacity k = i
    · subst hji
      rw [getD_set_self hik] at hp
      rcases chainInsert_mem hp with h' | h'
      · rw [h']
      · exact hhome _ hi p h'
    · rw [getD_set_ne hji] at hp
      exact hhome i hi p hp
  · intro i hi
    simp only [insertRaw, insertRaw_capacity]
    by_cases hji : hashFunction t.capacity k = i
    · subst hji
      rw [getD_set_self hik, chainInsert_keys]
      by_cases hb : (chainInsert k v (t.buckets.getD (hashFunction t.capacity k) [])).2
        = true
      · rw [if_pos hb]
        rw [List.nodup_append]
        refine ⟨hnd _ hi, List.nodup_singleton k, ?_⟩
        intro a ha hb'
        rw [List.mem_singleton] at hb'
        exact (chainInsert_added_iff k v _).mp hb (hb' ▸ ha)
      · rw [if_neg hb]
        exact hnd _ hi
    · rw [getD_set_ne hji]
      exact hnd i hi

theorem lastInserted_from {es : List (Str × V)} (k : Str) (init : Option V) :
    es.foldl (fun acc p => if p.1 = k then some p.2 else acc) init =
      match lastInserted es k with
      | some v => some v
      | none => init := by
  induction es generalizing init with
  | nil => simp [lastInserted]
  | cons e es ih =>
    rw [List.foldl_cons, ih]
    have he : lastInserted (e :: es) k =
        es.foldl (fun acc p => if p.1 = k then some p.2 else acc)
          (if e.1 = k then some e.2 else none) := rfl
    rw [he, ih]
    cases hL : lastInserted es k with
    | some v => rfl
    | none => by_cases hek : e.1 = k <;> simp [hek]

theorem foldl_insertRaw_spec (es : List (Str × V)) :
    ∀ t0 : HashTable V, 0 < t0.capacity → t0.buckets.length = t0.capacity →
      (es.foldl (fun acc kv => insertRaw acc kv.1 kv.2) t0).capacity = t0.capacity ∧
      (es.foldl (fun acc kv => insertRaw acc kv.1 kv.2) t0).buckets.length =
        t0.buckets.length ∧
      ∀ k, (es.foldl (fun acc kv => insertRaw acc kv.1 kv.2) t0).search k =
        match lastInserted es k with
        | some v => some v
        | none => t0.search k := by
  induction es with
  | nil => exact fun t0 _ _ => ⟨rfl, rfl, fun k => by simp [lastInserted]⟩
  | cons e es ih =>
    intro t0 hc hl
    obtain ⟨hcap, hlen, hsearch⟩ :=
      ih (insertRaw t0 e.1 e.2) (by rw [insertRaw_capacity]; exact hc)
        (by rw [insertRaw_length, hl, insertRaw_capacity])
    rw [List.foldl_cons]
    refine ⟨by rw [hcap, insertRaw_capacity],
      by rw [hlen, insertRaw_length], fun k => ?_⟩
    rw [hsearch k, insertRaw_search t0 e.1 e.2 hc hl k]
    have he : lastInserted (e :: es) k =
        es.foldl (fun acc p => if p.1 = k then some p.2 else acc)
          (if e.1 = k then some e.2 else none) := rfl
    rw [he, lastInserted_from]
    cases hL : lastInserted es k with
    | some v => rfl
    | none =>
      by_cases hek : e.1 = k
      · simp [hek]
      · simp only [hek, Bool.false_eq_true, if_neg, not_false_iff]
        rw [if_neg (fun h : k = e.1 => hek h.symm)]

theorem chainSearch_append (k : Str) (l1 l2 : List (Str × V)) :
    chainSearch k (l1 ++ l2) =
      match chainSearch k l1 with
      | some v => some v
      | none => chainSearch k l2 := by
  induction l1 with
  | nil => simp [chainSearch]
  | cons p l1 ih =>
    obtain ⟨k0, v0⟩ := p
    by_cases hk : k0 = k
    · simp [chainSearch, hk]
    · simp only [List.cons_append, chainSearch, hk, if_neg, not_false_iff]
      exact ih

theorem chainSearch_eq_none {k : Str} {l : List (Str × V)}
    (h : ∀ p ∈ l, ¬ (p.1 = k)) : chainSearch k l = none := by
  induction l with
  | nil => rfl
  | cons p l ih =>
    obtain ⟨k0, v0⟩ := p
    simp only [chainSearch, h (k0, v0) (by simp), if_neg, not_false_iff]
    exact ih (fun q hq => h q (by simp [hq]))

theorem chainSearch_flatten {b : List (List (Str × V))} {k : Str} :
    ∀ {i : Nat}, i < b.length →
      (∀ j, j < b.length → j ≠ i → ∀ p ∈ b.getD j [], ¬ (p.1 = k)) →
      chainSearch k b.flatten = chainSearch k (b.getD i []) := by
  induction b with
  | nil => intro i hi; simp at hi
  | cons c b ih =>
    intro i hi hother
    cases i with
    | zero =>
      rw [List.flatten_cons, chainSearch_append]
      have hrest : chainSearch k b.flatten = none := by
        apply chainSearch_eq_none
        intro p hp
        obtain ⟨l, hl, hpl⟩ := List.mem_flatten.mp hp
        obtain ⟨j, hj, he⟩ := List.getElem_of_mem hl
        refine hother (j + 1) (by simpa using hj) (by omega) p ?_
        have : (c :: b).getD (j + 1) [] = b.getD j [] := rfl
        rw [this, List.getD_eq_getElem?_getD, List.getElem?_eq_getElem hj, he]
        exact hpl
      rw [hrest]
      have hc0 : (c :: b).getD 0 [] = c := rfl
      rw [hc0]
      cases chainSearch k c <;> rfl
    | succ i' =>
      rw [List.flatten_cons, chainSearch_append]
      have hc : chainSearch k c = none := by
        apply chainSearch_eq_none
        intro p hp
        exact hother 0 (by omega) (by omega) p hp
      rw [hc]
      have hi' : i' < b.length := by simpa using hi
      have := ih hi' (fun j hj hji p hp =>
        hother (j + 1) (by simpa using hj) (by omega) p hp)
      rw [this]
      rfl

theorem lastInserted_eq_chainSearch {es : List (Str × V)} {k : Str}
    (h : (es.map Prod.fst).Nodup) : lastInserted es k = chainSearch k es := by
  induction es with
  | nil => rfl
  | cons e es ih =>
    obtain ⟨k0, v0⟩ := e
    rw [List.map_cons, List.nodup_cons] at h
    obtain ⟨hk0, hnd⟩ := h
    have he : lastInserted ((k0, v0) :: es) k =
        es.foldl (fun acc p => if p.1 = k then some p.2 else acc)
          (if k0 = k then some v0 else none) := rfl
    rw [he, lastInserted_from, ih hnd]
    by_cases hk : k0 = k
    · subst hk
      have : chainSearch k0 es = none := by
        apply chainSearch_eq_none
        intro p hp hpk
        have hmem : p.1 ∈ es.map Prod.fst := List.mem_map_of_mem Prod.fst hp
        rw [hpk] at hmem
        exact hk0 hmem
      rw [this]
      simp [chainSearch]
    · simp only [chainSearch, hk, if_neg, not_false_iff]
      cases chainSearch k es <;> simp [hk]

theorem flat_keys_nodup {t : HashTable V} (h : HInv t) :
    (t.buckets.flatten.map Prod.fst).Nodup := by
  obtain ⟨hc, hl, hhome, hnd⟩ := h
  rw [List.map_flatten, List.nodup_flatten]
  constructor
  · intro l hlmem
    obtain ⟨c, hcm, rfl⟩ := List.mem_map.mp hlmem
    obtain ⟨j, hj, he⟩ := List.getElem_of_mem hcm
    have : t.buckets.getD j [] = c := by
      rw [List.getD_eq_getElem?_getD, List.getElem?_eq_getElem hj, he]
      rfl
    exact this ▸ hnd j (by omega) 
  · rw [List.pairwise_iff_getElem]
    intro i j hi hj hij
    simp only [List.length_map] at hi hj
    intro a hai haj
    have hgi : (List.map (List.map Prod.fst) t.buckets)[i] =
        List.map Prod.fst t.buckets[i] := by
      simp
    have hgj : (List.map (List.map Prod.fst) t.buckets)[j] =
        List.map Prod.fst t.buckets[j] := by
      simp
    rw [hgi] at hai
    rw [hgj] at haj
    obtain ⟨p, hp, rfl⟩ := List.mem_map.mp hai
    obtain ⟨q, hq, he⟩ := List.mem_map.mp haj
    have hdi : t.buckets.getD i [] = t.buckets[i] := by
      rw [List.getD_eq_getElem?_getD, List.getElem?_eq_getElem hi]
      rfl
    have hdj : t.buckets.getD j [] = t.buckets[j] := by
      rw [List.getD_eq_getElem?_getD, List.getElem?_eq_getElem hj]
      rfl
    have h1 := hhome i (by omega) p (by rw [hdi]; exact hp)
    have h2 := hhome j (by omega) q (by rw [hdj]; exact hq)
    rw [he] at h2
    omega

theorem search_eq_chainSearch_flatten {t : HashTable V} (h : HInv t) (k : Str) :
    t.search k = chainSearch k t.buckets.flatten := by
  obtain ⟨hc, hl, hhome, hnd⟩ := h
  rw [HashTable.search]
  refine (chainSearch_flatten (i := hashFunction t.capacity k)
    (by rw [hl]; exact hashFunction_lt hc k) ?_).symm
  intro j hj hji p hp
  intro hpk
  have := hhome j (by omega) p hp
  rw [hpk] at this
  exact hji this.symm

theorem resize_spec {t : HashTable V} (h : HInv t) :
    HInv t.resize ∧ t.resize.capacity = t.capacity * 2 ∧
      ∀ k, t.resize.search k = t.search k := by
  have hc := h.1
  have empty_inv : HInv (⟨t.capacity * 2, 0,
      List.replicate (t.capacity * 2) []⟩ : HashTable V) := by
    refine ⟨by show 0 < t.capacity * 2; omega, by rw [List.length_replicate], ?_, ?_⟩
    · intro i hi p hp
      rw [getD_replicate_nil] at hp
      cases hp
    · intro i hi
      rw [getD_replicate_nil]
      exact List.Pairwise.nil
  have hfold := foldl_insertRaw_spec t.buckets.flatten
    (⟨t.capacity * 2, 0, List.replicate (t.capacity * 2) []⟩ : HashTable V)
    (by show 0 < t.capacity * 2; omega) (by rw [List.length_replicate])
  obtain ⟨hcap, hlen, hsearch⟩ := hfold
  have hinv : HInv t.resize := by
    have : ∀ (es : List (Str × V)) (t0 : HashTable V), HInv t0 →
        HInv (es.foldl (fun acc kv => insertRaw acc kv.1 kv.2) t0) := by
      intro es
      induction es with
      | nil => exact fun t0 h0 => h0
      | cons e es ih =>
        intro t0 h0
        exact ih (insertRaw t0 e.1 e.2) (insertRaw_HInv e.1 e.2 h0)
    exact this _ _ empty_inv
  refine ⟨hinv, hcap, fun k => ?_⟩
  rw [show t.resize.search k =
    (t.buckets.flatten.foldl (fun acc kv => insertRaw acc kv.1 kv.2)
      (⟨t.capacity * 2, 0, List.replicate (t.capacity * 2) []⟩ : HashTable V)).search k
    from rfl, hsearch k]
  have hempty : (⟨t.capacity * 2, 0,
      List.replicate (t.capacity * 2) []⟩ : HashTable V).search k = none := by
    rw [HashTable.search, getD_replicate_nil]
    rfl
  rw [hempty, lastInserted_eq_chainSearch (flat_keys_nodup h),
    ← search_eq_chainSearch_flatten h k]
  cases t.search k <;> rfl

theorem insert_spec {t : HashTable V} (k : Str) (v : V) (h : HInv t) :
    HInv (t.insert k v) ∧
      (t.insert k v).capacity = t.capacity ∨
        HInv (t.insert k v) ∧ (t.insert k v).capacity = t.capacity * 2 := by
  rw [HashTable.insert]
  by_cases hload : 3 * t.capacity ≤ 4 * t.size
  · rw [if_pos hload]
    obtain ⟨hr1, hr2, _⟩ := resize_spec h
    exact Or.inr ⟨insertRaw_HInv k v hr1, by rw [insertRaw_capacity, hr2]⟩
  · rw [if_neg hload]
    exact Or.inl ⟨insertRaw_HInv k v h, rfl⟩

theorem insert_search {t : HashTable V} (k : Str) (v : V) (h : HInv t)
    (k' : Str) :
    (t.insert k v).search k' = if k' = k then some v else t.search k' := by
  rw [HashTable.insert]
  by_cases hload : 3 * t.capacity ≤ 4 * t.size
  · rw [if_pos hload]
    obtain ⟨hr1, _, hr3⟩ := resize_spec h
    rw [insertRaw_search _ _ _ hr1.1 hr1.2.1, hr3 k']
  · rw [if_neg hload]
    rw [insertRaw_search _ _ _ h.1 h.2.1]

/-- C2: for every sequence of pattern-store inserts, `search` returns
the most recently inserted value of every key, and the capacity is
always the initial 50 times a power of two (it only ever doubles). -/
theorem C2_hash_preservation {V : Type} (ops : List (Str × V)) :
    (∀ k : Str,
      (ops.foldl (fun t kv => t.insert kv.1 kv.2) (initTable V)).search k =
        lastInserted ops k) ∧
    ∃ m : Nat,
      (ops.foldl (fun t kv => t.insert kv.1 kv.2) (initTable V)).capacity =
        50 * 2 ^ m := by
  have hinit : HInv (initTable V) := by
    refine ⟨by show (0:Nat) < 50; omega,
      by show (List.replicate 50 ([] : List (Str × V))).length = 50;
         rw [List.length_replicate], ?_, ?_⟩
    · intro i hi p hp
      rw [show (initTable V).buckets = List.replicate 50 [] from rfl,
        getD_replicate_nil] at hp
      cases hp
    · intro i hi
      rw [show (initTable V).buckets = List.replicate 50 [] from rfl,
        getD_replicate_nil]
      exact List.Pairwise.nil
  have main : ∀ (ops : List (Str × V)) (t0 : HashTable V), HInv t0 →
      HInv (ops.foldl (fun t kv => t.insert kv.1 kv.2) t0) ∧
      (∀ k, (ops.foldl (fun t kv => t.insert kv.1 kv.2) t0).search k =
        match lastInserted ops k with
        | some v => some v
        | none => t0.search k) ∧
      ∃ m : Nat, (ops.foldl (fun t kv => t.insert kv.1 kv.2) t0).capacity =
        t0.capacity * 2 ^ m := by
    intro ops
    induction ops with
    | nil =>
      intro t0 h0
      refine ⟨h0, fun k => by simp [lastInserted], ⟨0, by simp⟩⟩
    | cons e es ih =>
      intro t0 h0
      have hstep := insert_spec e.1 e.2 h0
      have hinv1 : HInv (t0.insert e.1 e.2) := by
        rcases hstep with ⟨h1, _⟩ | ⟨h1, _⟩ <;> exact h1
      have hcap1 : (t0.insert e.1 e.2).capacity = t0.capacity ∨
          (t0.insert e.1 e.2).capacity = t0.capacity * 2 := by
        rcases hstep with ⟨_, h2⟩ | ⟨_, h2⟩
        · exact Or.inl h2
        · exact Or.inr h2
      obtain ⟨hi1, hi2, m', hi3⟩ := ih (t0.insert e.1 e.2) hinv1
      refine ⟨hi1, fun k => ?_, ?_⟩
      · rw [List.foldl_cons, hi2 k, insert_search e.1 e.2 h0 k]
        have he : lastInserted (e :: es) k =
            es.foldl (fun acc p => if p.1 = k then some p.2 else acc)
              (if e.1 = k then some e.2 else none) := rfl
        rw [he, lastInserted_from]
        cases hL : lastInserted es k with
        | some v => rfl
        | none =>
          by_cases hek : e.1 = k
          · simp [hek]
          · simp only [hek, Bool.false_eq_true, if_neg, not_false_iff]
            rw [if_neg (fun h : k = e.1 => hek h.symm)]
      · rcases hcap1 with h2 | h2
        · exact ⟨m', by rw [List.foldl_cons, hi3, h2]⟩
        · refine ⟨m' + 1, ?_⟩
          rw [List.foldl_cons, hi3, h2]
          ring
  obtain ⟨_, hsearch, m, hcap⟩ := main ops (initTable V) hinit
  constructor
  · intro k
    rw [hsearch k]
    have : (initTable V).search k = none := by
      rw [HashTable.search,
        show (initTable V).buckets = List.replicate 50 [] from rfl,
        getD_replicate_nil]
      rfl
    rw [this]
    cases lastInserted ops k <;> rfl
  · exact ⟨m, by rw [hcap]; rfl⟩

/-! ## Characterization of `is_valid_root` (claim C8) -/

/-- The claim's reading of the rule (spec wording): exactly three
characters after shadda expansion, every one an Arabic letter. -/
def isValidRootSpec (s : Str) : Bool :=
  decide ((expandShadda s).length = 3) &&
    (expandShadda s).all (fun c => c ∈ arabicLetters)

/-- C8 counterexample: a string ending in a fatha diacritic is accepted
by the code (diacritics pass the per-character check) but has a
non-letter character, refuting the claimed equivalence. -/
theorem C8_counterexample :
    isValidRoot ['ك', 'ت', 'َ'] = true ∧
      isValidRootSpec ['ك', 'ت', 'َ'] = false := by decide

/-- C8 amended: `is_valid_root s` holds iff the shadda expansion of `s`
has exactly three characters, each an Arabic letter or a diacritic
(shadda included); empty or invalid input yields `false`. -/
theorem C8_is_valid_root_characterization (s : Str) :
    isValidRoot s = true ↔
      ((expandShadda s).length = 3 ∧
        ∀ c ∈ expandShadda s, c ∈ arabicLetters ∨ isDiacritic c = true) := by
  unfold isValidRoot
  by_cases hs : s = []
  · subst hs
    simp [expandShadda]
  · rw [if_neg hs]
    by_cases hlen : (expandShadda s).length ≠ 3
    · rw [if_pos hlen]
      simp only [Bool.false_eq_true, false_iff, not_and]
      intro h
      exact absurd h hlen
    · rw [if_neg hlen]
      rw [List.all_eq_true]
      constructor
      · intro h
        refine ⟨by omega, fun c hc => ?_⟩
        have := h c hc
        simpa using this
      · intro ⟨_, h⟩ c hc
        simpa using h c hc

/-! ## Characterization of `validate_template_syntax` (claim C3) -/

/-- The claim's reading of the template rule (spec wording): each of the
markers 1, 2, 3 appears at least once — repeats allowed — and every
character is one of the markers or an Arabic letter. -/
def templateRuleSpec (tpl : Str) : Bool :=
  ('1' ∈ tpl && '2' ∈ tpl && '3' ∈ tpl) &&
    tpl.all (fun c => c ∈ (['1', '2', '3'] : List Char) || c ∈ arabicLetters)

/-- C3 counterexample: `1123` repeats the marker 1; the spec rule
accepts it but `validate_template_syntax` (and the hash-table level
`_validate_template`) rejects it. -/
theorem C3_counterexample :
    templateRuleSpec ['1', '1', '2', '3'] = true ∧
      (validateTemplateSyntax ['1', '1', '2', '3']).1 = false ∧
      hashValidateTemplate ['1', '1', '2', '3'] = false := by decide

lemma filter_markers_length (tpl : Str) :
    (tpl.filter (fun c => c ∈ (['1', '2', '3'] : List Char))).length =
      tpl.count '1' + tpl.count '2' + tpl.count '3' := by
  induction tpl with
  | nil => simp
  | cons c t ih =>
    by_cases hc : c ∈ (['1', '2', '3'] : List Char)
    · have hm : c = '1' ∨ c = '2' ∨ c = '3' := by simpa using hc
      rcases hm with rfl | rfl | rfl <;>
        (simp [List.filter_cons, List.count_cons] at ih ⊢; omega)
    · have h1 : ¬ c = '1' := fun h => hc (by simp [h])
      have h2 : ¬ c = '2' := fun h => hc (by simp [h])
      have h3 : ¬ c = '3' := fun h => hc (by simp [h])
      simp [List.filter_cons, hc, List.count_cons, h1, h2, h3] at ih ⊢
      omega

lemma counts_rootPositions (tpl : Str) :
    ((tpl.filter (fun c => c ∈ (['1', '2', '3'] : List Char))).map
        (fun c => c.toNat - 48)).count 1 = tpl.count '1' ∧
      ((tpl.filter (fun c => c ∈ (['1', '2', '3'] : List Char))).map
        (fun c => c.toNat - 48)).count 2 = tpl.count '2' ∧
      ((tpl.filter (fun c => c ∈ (['1', '2', '3'] : List Char))).map
        (fun c => c.toNat - 48)).count 3 = tpl.count '3' := by
  have e1 : '1'.toNat - 48 = 1 := by decide
  have e2 : '2'.toNat - 48 = 2 := by decide
  have e3 : '3'.toNat - 48 = 3 := by decide
  induction tpl with
  | nil => simp
  | cons c t ih =>
    obtain ⟨ih1, ih2, ih3⟩ := ih
    by_cases hc : c ∈ (['1', '2', '3'] : List Char)
    · have hm : c = '1' ∨ c = '2' ∨ c = '3' := by simpa using hc
      rcases hm with rfl | rfl | rfl <;>
        (simp [List.filter_cons, List.count_cons, e1, e2, e3] at ih1 ih2 ih3 ⊢ <;>
          omega)
    · have h1 : ¬ c = '1' := fun h => hc (by simp [h])
      have h2 : ¬ c = '2' := fun h => hc (by simp [h])
      have h3 : ¬ c = '3' := fun h => hc (by simp [h])
      simp [List.filter_cons, hc, List.count_cons, h1, h2, h3] at ih1 ih2 ih3 ⊢
      refine ⟨?_, ?_, ?_⟩ <;> omega

lemma mem_rootPositions (tpl : Str) :
    ∀ v ∈ (tpl.filter (fun c => c ∈ (['1', '2', '3'] : List Char))).map
        (fun c => c.toNat - 48), v = 1 ∨ v = 2 ∨ v = 3 := by
  intro v hv
  simp only [List.mem_map, List.mem_filter] at hv
  obtain ⟨c, ⟨-, hc⟩, rfl⟩ := hv
  have hm : c = '1' ∨ c = '2' ∨ c = '3' := by simpa using hc
  rcases hm with rfl | rfl | rfl <;> decide

/-- C3 amended: `validate_template_syntax` accepts a template exactly
when each of the markers `1`, `2`, `3` occurs exactly once (repeats are
rejected as duplicate markers) and every character is a marker or an
Arabic letter. -/
theorem C3_template_validation_characterization (tpl : Str) :
    (validateTemplateSyntax tpl).1 = true ↔
      (tpl.count '1' = 1 ∧ tpl.count '2' = 1 ∧ tpl.count '3' = 1 ∧
        ∀ c ∈ tpl, c ∈ (['1', '2', '3'] : List Char) ∨ c ∈ arabicLetters) := by
  obtain ⟨hc1, hc2, hc3⟩ := counts_rootPositions tpl
  have hflen := filter_markers_length tpl
  have hmem := mem_rootPositions tpl
  by_cases hnil : tpl = []
  · subst hnil
    simp [validateTemplateSyntax]
  obtain ⟨rp, hrp⟩ : ∃ rp, (tpl.filter (fun c => c ∈ (['1', '2', '3'] : List Char))).map
      (fun c => c.toNat - 48) = rp := ⟨_, rfl⟩
  rw [hrp] at hc1 hc2 hc3 hmem
  have hlen : rp.length = tpl.count '1' + tpl.count '2' + tpl.count '3' := by
    rw [← hrp, List.length_map]
    exact hflen
  simp only [validateTemplateSyntax]
  rw [if_neg hnil, hrp]
  by_cases h3 : rp.length = 3
  · rw [if_neg (not_not_intro h3)]
    have hperm : rp.insertionSort (· ≤ ·) = [1, 2, 3] ↔ rp.Perm [1, 2, 3] := by
      constructor
      · intro h
        have hp := List.perm_insertionSort (· ≤ ·) rp
        rw [h] at hp
        exact hp.symm
      · intro h
        have hs1 : List.Sorted (· ≤ ·) (rp.insertionSort (· ≤ ·)) :=
          List.sorted_insertionSort _ _
        have hs2 : List.Sorted (· ≤ ·) ([1, 2, 3] : List Nat) := by decide
        exact List.eq_of_perm_of_sorted ((List.perm_insertionSort _ _).trans h) hs1 hs2
    have hcnt : rp.Perm [1, 2, 3] ↔
        (rp.count 1 = 1 ∧ rp.count 2 = 1 ∧ rp.count 3 = 1) := by
      constructor
      · intro h
        refine ⟨?_, ?_, ?_⟩ <;> rw [h.count_eq] <;> decide
      · rintro ⟨g1, g2, g3⟩
        rw [List.perm_iff_count]
        intro a
        by_cases a1 : a = 1
        · subst a1; rw [g1]; decide
        by_cases a2 : a = 2
        · subst a2; rw [g2]; decide
        by_cases a3 : a = 3
        · subst a3; rw [g3]; decide
        have hz : rp.count a = 0 := by
          rw [List.count_eq_zero]
          intro hin
          rcases hmem a hin with rfl | rfl | rfl <;> simp at a1 a2 a3
        rw [hz, List.count_eq_zero.mpr (by simp [a1, a2, a3])]
    by_cases hsort : rp.insertionSort (· ≤ ·) = [1, 2, 3]
    · rw [if_neg (not_not_intro hsort)]
      have hnd : rp.Nodup := ((hperm.mp hsort).nodup_iff).mpr (by decide)
      have hded : rp.dedup.length = 3 := by
        rw [List.dedup_eq_self.mpr hnd, h3]
      rw [if_neg (not_not_intro hded)]
      have hcounts : tpl.count '1' = 1 ∧ tpl.count '2' = 1 ∧ tpl.count '3' = 1 := by
        have h := hcnt.mp (hperm.mp hsort)
        rw [hc1, hc2, hc3] at h
        exact h
      rcases hfind : tpl.find?
          (fun c => !(c ∈ (['1', '2', '3'] : List Char) || c ∈ arabicLetters)) with _ | c
      · simp only [hfind]
        have hchar : ∀ c ∈ tpl, c ∈ (['1', '2', '3'] : List Char) ∨ c ∈ arabicLetters := by
          intro c hcin
          have h := List.find?_eq_none.mp hfind c hcin
          by_cases hin : c ∈ (['1', '2', '3'] : List Char)
          · exact Or.inl hin
          by_cases hin2 : c ∈ arabicLetters
          · exact Or.inr hin2
          exact absurd (by simp [hin, hin2]) h
        constructor
        · intro _
          exact ⟨hcounts.1, hcounts.2.1, hcounts.2.2, hchar⟩
        · intro _
          trivial
      · simp only [hfind]
        have hcp := List.find?_some hfind
        have hmemc := List.mem_of_find?_eq_some hfind
        refine iff_of_false (by simp) ?_
        rintro ⟨-, -, -, hall⟩
        have h := hall c hmemc
        simp only [Bool.not_eq_eq_eq_not, Bool.not_true, Bool.or_eq_false_iff,
          decide_eq_false_iff_not] at hcp
        rcases h with h | h
        · exact absurd h hcp.1
        · exact absurd h hcp.2
    · rw [if_pos hsort]
      refine iff_of_false (by simp) ?_
      rintro ⟨g1, g2, g3, -⟩
      apply hsort
      apply hperm.mpr
      apply hcnt.mpr
      exact ⟨by rw [hc1]; exact g1, by rw [hc2]; exact g2, by rw [hc3]; exact g3⟩
  · rw [if_pos h3]
    refine iff_of_false (by simp) ?_
    rintro ⟨g1, g2, g3, -⟩
    exact h3 (by omega)

/-! ## Round-trip of `apply_pattern` and `find_pattern_match` (claim C4) -/

lemma pyDigitVal_arabic : ∀ c ∈ arabicLetters, pyDigitVal c = none := by decide

lemma validateTemplateSyntax_chars (tpl : Str)
    (h : (validateTemplateSyntax tpl).1 = true) :
    ∀ c ∈ tpl, c ∈ (['1', '2', '3'] : List Char) ∨ c ∈ arabicLetters := by
  intro c hc
  by_contra hbad
  push_neg at hbad
  have hfind : ∃ d, tpl.find?
      (fun x => !(x ∈ (['1', '2', '3'] : List Char) || x ∈ arabicLetters)) = some d := by
    rw [← Option.isSome_iff_exists]
    exact List.find?_isSome.mpr ⟨c, hc, by simp [hbad.1, hbad.2]⟩
  obtain ⟨d, hd⟩ := hfind
  by_cases hnil : tpl = []
  · subst hnil
    simp [validateTemplateSyntax] at h
  unfold validateTemplateSyntax at h
  rw [if_neg hnil] at h
  simp only [hd] at h
  split_ifs at h <;> simp at h

lemma applyPatternAux_some (e : Str) (tpl : Str)
    (h : ∀ c ∈ tpl, c ∈ (['1', '2', '3'] : List Char) ∨ c ∈ arabicLetters) :
    ∃ w, applyPatternAux e tpl = some w := by
  have d1 : pyDigitVal '1' = some 1 := by decide
  have d2 : pyDigitVal '2' = some 2 := by decide
  have d3 : pyDigitVal '3' = some 3 := by decide
  induction tpl with
  | nil => exact ⟨[], rfl⟩
  | cons c rest ih =>
    obtain ⟨w, hw⟩ := ih (fun d hd => h d (List.mem_cons_of_mem _ hd))
    rcases h c (List.mem_cons_self c rest) with hm | hm
    · have hm' : c = '1' ∨ c = '2' ∨ c = '3' := by simpa using hm
      rcases hm' with rfl | rfl | rfl
      · exact ⟨e.getD 0 'a' :: w, by simp [applyPatternAux, d1, hw]⟩
      · exact ⟨e.getD 1 'a' :: w, by simp [applyPatternAux, d2, hw]⟩
      · exact ⟨e.getD 2 'a' :: w, by simp [applyPatternAux, d3, hw]⟩
    · exact ⟨c :: w, by simp [applyPatternAux, pyDigitVal_arabic c hm, hw]⟩

/-- C4: the round trip holds — for a root of three characters and a
syntactically valid template, `apply_pattern` succeeds and
`find_pattern_match` on its output returns `true` (the regenerated word
agrees with itself under the first normalization comparison). -/
theorem C4_round_trip (root tpl : Str) (hr : root.length = 3)
    (ht : (validateTemplateSyntax tpl).1 = true) :
    ∃ w, applyPattern root tpl = some w ∧ findPatternMatch w root tpl = true := by
  have hchars := validateTemplateSyntax_chars tpl ht
  have he : (expandShadda root).length = 3 := by rw [expandShadda_length]; exact hr
  obtain ⟨w, hw⟩ := applyPatternAux_some (expandShadda root) tpl hchars
  have hap : applyPattern root tpl = some w := by
    simp only [applyPattern]
    rw [if_neg (not_not_intro he)]
    exact hw
  refine ⟨w, hap, ?_⟩
  unfold findPatternMatch
  rw [hap]
  simp

/-- C4 witness at the root كتب and the template 1ا23. -/
theorem C4_round_trip_witness :
    ∃ w, applyPattern ['ك', 'ت', 'ب'] ['1', 'ا', '2', '3'] = some w ∧
      findPatternMatch w ['ك', 'ت', 'ب'] ['1', 'ا', '2', '3'] = true :=
  C4_round_trip ['ك', 'ت', 'ب'] ['1', 'ا', '2', '3'] (by decide) (by decide)

/-! ## The root classifier (`root_classifier.py`, `arabic_types.py`)

`RootAnalysis` mirrors the dataclass; the purely presentational
`description` string is not carried.  Subtype strings are the Arabic
constants of the source. -/

inductive RootCategory where
  | sound : RootCategory
  | weak : RootCategory
  | hamzated : RootCategory
  | doubled : RootCategory
  | unknown : RootCategory
deriving DecidableEq

structure RootAnalysis where
  root : Str
  category : RootCategory
  subtype : Option Str
  weakPositions : List Nat
  hamzaPositions : List Nat
  isDoubled : Bool
deriving DecidableEq

/-- `RootClassifier.WEAK_LETTERS`. -/
def weakLetters : Str := ['و', 'ي', 'ا', 'ى']

/-- `RootClassifier.HAMZA_LETTERS`. -/
def hamzaLetters : Str := ['ء', 'أ', 'إ', 'آ', 'ؤ', 'ئ']

/-- The `enumerate`-and-collect loop of `_find_hamza_positions` /
`_find_weak_positions`, with the running index explicit. -/
def findPositionsAux (p : Char → Bool) : Nat → Str → List Nat
  | _, [] => []
  | i, c :: rest =>
    if p c then i :: findPositionsAux p (i + 1) rest
    else findPositionsAux p (i + 1) rest

/-- `RootClassifier._find_hamza_positions`. -/
def findHamzaPositions (root : Str) : List Nat :=
  findPositionsAux (fun c => c ∈ hamzaLetters) 0 root

/-- `RootClassifier._find_weak_positions`. -/
def findWeakPositions (root : Str) : List Nat :=
  findPositionsAux (fun c => c ∈ weakLetters) 0 root

/-- `RootClassifier._determine_category` (category and subtype; the
description string it also returns is presentational and dropped). -/
def determineCategory (hamzaPositions weakPositions : List Nat)
    (isDoubled : Bool) : RootCategory × Option Str :=
  if hamzaPositions ≠ [] then
    if hamzaPositions.length = 1 then
      let p := hamzaPositions.getD 0 0
      if p = 0 then (.hamzated, some ['م', 'ه', 'م', 'و', 'ز', ' ', 'ا', 'ل', 'ف', 'ا', 'ء'])
      else if p = 1 then (.hamzated, some ['م', 'ه', 'م', 'و', 'ز', ' ', 'ا', 'ل', 'ع', 'ي', 'ن'])
      else (.hamzated, some ['م', 'ه', 'م', 'و', 'ز', ' ', 'ا', 'ل', 'ل', 'ا', 'م'])
    else (.hamzated, some ['م', 'ه', 'م', 'و', 'ز', ' ', 'م', 'ت', 'ع', 'د', 'د'])
  else if isDoubled then (.doubled, some ['م', 'ض', 'ع', 'ف'])
  else if weakPositions ≠ [] then
    (.weak, some (
      if weakPositions.length = 1 then
        let p := weakPositions.getD 0 0
        if p = 0 then ['م', 'ث', 'ا', 'ل']
        else if p = 1 then ['أ', 'ج', 'و', 'ف']
        else ['ن', 'ا', 'ق', 'ص']
      else if weakPositions.length = 2 then
        if weakPositions = [0, 2] then ['ل', 'ف', 'ي', 'ف', ' ', 'م', 'ف', 'ر', 'و', 'ق']
        else if weakPositions = [1, 2] then ['ل', 'ف', 'ي', 'ف', ' ', 'م', 'ق', 'ر', 'و', 'ن']
        else ['ل', 'ف', 'ي', 'ف', ' ', 'آ', 'خ', 'ر']
      else ['م', 'ع', 'ت', 'ل', ' ', 'ك', 'ا', 'م', 'ل']))
  else (.sound, some ['ص', 'ح', 'ي', 'ح', ' ', 'س', 'ا', 'ل', 'م'])

/-- `RootClassifier.classify`: normalize with shadda expansion, reject a
result that is not three characters, otherwise compute the doubling
flag, the hamza and weak positions, and the category. -/
def classify (root : Str) : RootAnalysis :=
  let n := normalizeArabic root false true
  if n.length ≠ 3 then
    ⟨root, .unknown, none, [], [], false⟩
  else
    let db : Bool := decide (n.getD 1 'a' = n.getD 2 'a') &&
      !(decide (n.getD 1 'a' ∈ weakLetters))
    let hp := findHamzaPositions n
    let wp := findWeakPositions n
    let cs := determineCategory hp wp db
    ⟨n, cs.1, cs.2, wp, hp, db⟩

lemma findPositionsAux_eq_nil (p : Char → Bool) (s : Str)
    (h : ∀ c ∈ s, ¬ p c = true) : ∀ i, findPositionsAux p i s = [] := by
  induction s with
  | nil => intro i; rfl
  | cons c rest ih =>
    intro i
    rw [findPositionsAux, if_neg (h c (List.mem_cons_self c rest))]
    exact ih (fun d hd => h d (List.mem_cons_of_mem _ hd)) (i + 1)

lemma findPositionsAux_ne_nil (p : Char → Bool) (s : Str) (c : Char)
    (hc : c ∈ s) (hp : p c = true) : ∀ i, findPositionsAux p i s ≠ [] := by
  induction s with
  | nil => cases hc
  | cons d rest ih =>
    intro i
    rw [findPositionsAux]
    by_cases hd : p d = true
    · rw [if_pos hd]; simp
    · rw [if_neg hd]
      rcases List.mem_cons.mp hc with rfl | hc'
      · exact absurd hp hd
      · exact ih hc' (i + 1)

lemma findPositionsAux_length (p : Char → Bool) (s : Str) :
    ∀ i, (findPositionsAux p i s).length = (s.filter p).length := by
  induction s with
  | nil => intro i; rfl
  | cons c rest ih =>
    intro i
    rw [findPositionsAux, List.filter_cons]
    by_cases hc : p c = true
    · rw [if_pos hc, if_pos hc]
      simp [ih (i + 1)]
    · rw [if_neg hc, if_neg hc]
      exact ih (i + 1)

lemma determineCategory_hamzated (hp wp : List Nat) (d : Bool) (h : hp ≠ []) :
    (determineCategory hp wp d).1 = .hamzated := by
  simp only [determineCategory]
  rw [if_pos h]
  split_ifs <;> rfl

lemma determineCategory_nil_true (wp : List Nat) :
    determineCategory [] wp true = (.doubled, some ['م', 'ض', 'ع', 'ف']) := by
  simp [determineCategory]

lemma determineCategory_nil_false_ne (wp : List Nat) (h : wp ≠ []) :
    (determineCategory [] wp false).1 = .weak := by
  simp only [determineCategory]
  rw [if_neg (by simp), if_neg (by simp), if_pos h]

lemma determineCategory_nil_false_nil :
    (determineCategory [] [] false).1 = .sound := by
  simp [determineCategory]

lemma determineCategory_multi (hp wp : List Nat) (d : Bool)
    (h1 : hp ≠ []) (h2 : hp.length ≠ 1) :
    (determineCategory hp wp d).2 =
      some ['م', 'ه', 'م', 'و', 'ز', ' ', 'م', 'ت', 'ع', 'د', 'د'] := by
  simp only [determineCategory]
  rw [if_pos h1, if_neg h2]

lemma determineCategory_single0 (wp : List Nat) (d : Bool) :
    (determineCategory [0] wp d).2 =
      some ['م', 'ه', 'م', 'و', 'ز', ' ', 'ا', 'ل', 'ف', 'ا', 'ء'] := by
  simp [determineCategory]

lemma determineCategory_single1 (wp : List Nat) (d : Bool) :
    (determineCategory [1] wp d).2 =
      some ['م', 'ه', 'م', 'و', 'ز', ' ', 'ا', 'ل', 'ع', 'ي', 'ن'] := by
  simp [determineCategory]

lemma determineCategory_single2 (wp : List Nat) (d : Bool) :
    (determineCategory [2] wp d).2 =
      some ['م', 'ه', 'م', 'و', 'ز', ' ', 'ا', 'ل', 'ل', 'ا', 'م'] := by
  simp [determineCategory]

/-- C7: on a self-normalized three-character root, `classify` follows
the claimed decision order — Hamzated as soon as a hamza-class letter is
present (multiple-hamza subtype when more than one, position-keyed
subtype when exactly one), otherwise Doubled when the second and third
characters coincide and are not weak, otherwise Weak when a weak letter
is present, otherwise Sound; and the examples قال (Weak, hollow/أجوف)
and مدّ (Doubled) classify as claimed. -/
theorem C7_classifier_decision_order (root : Str)
    (hn : normalizeArabic root false true = root) (hlen : root.length = 3) :
    ((∃ c ∈ root, c ∈ hamzaLetters) → (classify root).category = .hamzated) ∧
    ((∀ c ∈ root, c ∉ hamzaLetters) → root.getD 1 'a' = root.getD 2 'a' →
      root.getD 1 'a' ∉ weakLetters → (classify root).category = .doubled) ∧
    ((∀ c ∈ root, c ∉ hamzaLetters) →
      ¬(root.getD 1 'a' = root.getD 2 'a' ∧ root.getD 1 'a' ∉ weakLetters) →
      (∃ c ∈ root, c ∈ weakLetters) → (classify root).category = .weak) ∧
    ((∀ c ∈ root, c ∉ hamzaLetters) →
      ¬(root.getD 1 'a' = root.getD 2 'a' ∧ root.getD 1 'a' ∉ weakLetters) →
      (∀ c ∈ root, c ∉ weakLetters) → (classify root).category = .sound) ∧
    (1 < (root.filter (fun c => c ∈ hamzaLetters)).length →
      (classify root).subtype =
        some ['م', 'ه', 'م', 'و', 'ز', ' ', 'م', 'ت', 'ع', 'د', 'د']) ∧
    (root.getD 0 'a' ∈ hamzaLetters → root.getD 1 'a' ∉ hamzaLetters →
      root.getD 2 'a' ∉ hamzaLetters →
      (classify root).subtype =
        some ['م', 'ه', 'م', 'و', 'ز', ' ', 'ا', 'ل', 'ف', 'ا', 'ء']) ∧
    (root.getD 0 'a' ∉ hamzaLetters → root.getD 1 'a' ∈ hamzaLetters →
      root.getD 2 'a' ∉ hamzaLetters →
      (classify root).subtype =
        some ['م', 'ه', 'م', 'و', 'ز', ' ', 'ا', 'ل', 'ع', 'ي', 'ن']) ∧
    (root.getD 0 'a' ∉ hamzaLetters → root.getD 1 'a' ∉ hamzaLetters →
      root.getD 2 'a' ∈ hamzaLetters →
      (classify root).subtype =
        some ['م', 'ه', 'م', 'و', 'ز', ' ', 'ا', 'ل', 'ل', 'ا', 'م']) ∧
    (classify ['ق', 'ا', 'ل']).category = .weak ∧
    (classify ['ق', 'ا', 'ل']).subtype = some ['أ', 'ج', 'و', 'ف'] ∧
    (classify ['م', 'د', 'ّ']).category = .doubled := by
  have hcl : classify root =
      ⟨root,
        (determineCategory (findHamzaPositions root) (findWeakPositions root)
          (decide (root.getD 1 'a' = root.getD 2 'a') &&
            !(decide (root.getD 1 'a' ∈ weakLetters)))).1,
        (determineCategory (findHamzaPositions root) (findWeakPositions root)
          (decide (root.getD 1 'a' = root.getD 2 'a') &&
            !(decide (root.getD 1 'a' ∈ weakLetters)))).2,
        findWeakPositions root, findHamzaPositions root,
        decide (root.getD 1 'a' = root.getD 2 'a') &&
          !(decide (root.getD 1 'a' ∈ weakLetters))⟩ := by
    simp only [classify, hn]
    rw [if_neg (not_not_intro hlen)]
  have hcat : (classify root).category =
      (determineCategory (findHamzaPositions root) (findWeakPositions root)
        (decide (root.getD 1 'a' = root.getD 2 'a') &&
          !(decide (root.getD 1 'a' ∈ weakLetters)))).1 := by rw [hcl]
  have hsub : (classify root).subtype =
      (determineCategory (findHamzaPositions root) (findWeakPositions root)
        (decide (root.getD 1 'a' = root.getD 2 'a') &&
          !(decide (root.getD 1 'a' ∈ weakLetters)))).2 := by rw [hcl]
  refine ⟨?_, ?_, ?_, ?_, ?_, ?_, ?_, ?_, by decide, by decide, by decide⟩
  · rintro ⟨c, hc, hch⟩
    have hne : findHamzaPositions root ≠ [] :=
      findPositionsAux_ne_nil _ root c hc (decide_eq_true hch) 0
    rw [hcat]
    exact determineCategory_hamzated _ _ _ hne
  · intro hno heq hw
    have hhp : findHamzaPositions root = [] :=
      findPositionsAux_eq_nil _ root (fun d hd hq => hno d hd (of_decide_eq_true hq)) 0
    have hdb : (decide (root.getD 1 'a' = root.getD 2 'a') &&
        !(decide (root.getD 1 'a' ∈ weakLetters))) = true := by
      rw [decide_eq_true heq, decide_eq_false hw]
      rfl
    rw [hcat, hhp, hdb, determineCategory_nil_true]
  · intro hno hnd hwk
    have hhp : findHamzaPositions root = [] :=
      findPositionsAux_eq_nil _ root (fun d hd hq => hno d hd (of_decide_eq_true hq)) 0
    have hdb : (decide (root.getD 1 'a' = root.getD 2 'a') &&
        !(decide (root.getD 1 'a' ∈ weakLetters))) = false := by
      rcases Classical.em (root.getD 1 'a' = root.getD 2 'a') with he | he
      · have hw : root.getD 1 'a' ∈ weakLetters := by
          by_contra hw
          exact hnd ⟨he, hw⟩
        rw [decide_eq_true he, decide_eq_true hw]
        rfl
      · rw [decide_eq_false he]
        rfl
    obtain ⟨c, hc, hcw⟩ := hwk
    have hwp : findWeakPositions root ≠ [] :=
      findPositionsAux_ne_nil _ root c hc (decide_eq_true hcw) 0
    rw [hcat, hhp, hdb]
    exact determineCategory_nil_false_ne _ hwp
  · intro hno hnd hwk
    have hhp : findHamzaPositions root = [] :=
      findPositionsAux_eq_nil _ root (fun d hd hq => hno d hd (of_decide_eq_true hq)) 0
    have hwp : findWeakPositions root = [] :=
      findPositionsAux_eq_nil _ root (fun d hd hq => hwk d hd (of_decide_eq_true hq)) 0
    have hdb : (decide (root.getD 1 'a' = root.getD 2 'a') &&
        !(decide (root.getD 1 'a' ∈ weakLetters))) = false := by
      rcases Classical.em (root.getD 1 'a' = root.getD 2 'a') with he | he
      · have hw : root.getD 1 'a' ∈ weakLetters := by
          by_contra hw
          exact hnd ⟨he, hw⟩
        rw [decide_eq_true he, decide_eq_true hw]
        rfl
      · rw [decide_eq_false he]
        rfl
    rw [hcat, hhp, hwp, hdb]
    exact determineCategory_nil_false_nil
  · intro hmulti
    have hl : (findHamzaPositions root).length =
        (root.filter (fun c => c ∈ hamzaLetters)).length :=
      findPositionsAux_length _ root 0
    have h1 : findHamzaPositions root ≠ [] := by
      intro he
      rw [he] at hl
      simp at hl
      omega
    have h2 : (findHamzaPositions root).length ≠ 1 := by omega
    rw [hsub]
    exact determineCategory_multi _ _ _ h1 h2
  · intro h0 h1 h2
    obtain ⟨a, b, c, rfl⟩ := List.length_eq_three.mp hlen
    simp only [List.getD_cons_zero, List.getD_cons_succ] at h0 h1 h2
    have hhp : findHamzaPositions [a, b, c] = [0] := by
      simp [findHamzaPositions, findPositionsAux, h0, h1, h2]
    rw [hsub, hhp]
    exact determineCategory_single0 _ _
  · intro h0 h1 h2
    obtain ⟨a, b, c, rfl⟩ := List.length_eq_three.mp hlen
    simp only [List.getD_cons_zero, List.getD_cons_succ] at h0 h1 h2
    have hhp : findHamzaPositions [a, b, c] = [1] := by
      simp [findHamzaPositions, findPositionsAux, h0, h1, h2]
    rw [hsub, hhp]
    exact determineCategory_single1 _ _
  · intro h0 h1 h2
    obtain ⟨a, b, c, rfl⟩ := List.length_eq_three.mp hlen
    simp only [List.getD_cons_zero, List.getD_cons_succ] at h0 h1 h2
    have hhp : findHamzaPositions [a, b, c] = [2] := by
      simp [findHamzaPositions, findPositionsAux, h0, h1, h2]
    rw [hsub, hhp]
    exact determineCategory_single2 _ _

/-- C7 witness at the sound root كتب: no hamza, no doubling, no weak
letter, so the fourth branch applies and the category is Sound. -/
theorem C7_classifier_decision_order_witness :
    (classify ['ك', 'ت', 'ب']).category = .sound :=
  (C7_classifier_decision_order ['ك', 'ت', 'ب'] (by decide)
      (by decide)).2.2.2.1 (by decide) (by decide) (by decide)

/-! ## The morphological engine (`morphology.py`)

`PatternData` models the pattern dictionaries stored in the hash table;
only the `template` entry is semantically relevant (`description` and
`example` are presentational strings copied into results and dropped
here; a dictionary without a usable template is modelled by an empty
template, which `generate_word` rejects the same way).  `VMsg` tags the
distinct return points of the validation methods, standing for their
`message` strings. -/

structure PatternData where
  template : Str
deriving DecidableEq

structure GenResult where
  root : Str
  pattern : Str
  template : Str
  generatedWord : Str
  isValid : Bool
deriving DecidableEq

inductive VMsg where
  | invalidRoot : VMsg
  | rootNotFound : VMsg
  | matched : VMsg
  | noPatternMatch : VMsg
  | foundMatches : VMsg
  | noDerivation : VMsg
deriving DecidableEq

/-- The validation-result dictionaries: `word` and `is_valid` are always
present; `root`, `pattern`, `template` and `matches` appear in some of
the return points (absent keys are `none` / `[]`). -/
structure VRes where
  word : Str
  isValid : Bool
  root : Option Str
  pattern : Option Str
  template : Option Str
  matchRows : List (Str × Str × Str)
  tag : VMsg
deriving DecidableEq

/-- The engine's two stores. -/
structure Engine where
  tree : AVLTree
  table : HashTable PatternData

/-- `MorphologicalEngine._validate_against_root word root`: reject an
invalid root, then a root that `search` does not find, then scan
`get_all_patterns` for the first template regenerating the word. -/
def validateAgainstRoot (e : Engine) (word root : Str) : VRes :=
  if ¬ (isValidRoot root = true) then
    ⟨word, false, some root, none, none, [], .invalidRoot⟩
  else
    match searchTree e.tree root with
    | none => ⟨word, false, some root, none, none, [], .rootNotFound⟩
    | some _ =>
      match (getAllPatterns e.table).find?
          (fun p => findPatternMatch word root p.2.template) with
      | some p => ⟨word, true, some root, some p.1, some p.2.template, [], .matched⟩
      | none => ⟨word, false, some root, none, none, [], .noPatternMatch⟩

/-- `MorphologicalEngine._find_matching_root_and_pattern`: every stored
root against every stored pattern, in traversal order (the
`possible_roots` of the no-match dictionary are presentational and
dropped). -/
def findMatchingRootAndPattern (e : Engine) (word : Str) : VRes :=
  let ms := ((inorder e.tree).map (fun r =>
    (getAllPatterns e.table).filterMap (fun p =>
      if findPatternMatch word r p.2.template then some (r, p.1, p.2.template)
      else none))).flatten
  if ms ≠ [] then ⟨word, true, none, none, none, ms, .foundMatches⟩
  else ⟨word, false, none, none, none, [], .noDerivation⟩

/-- `MorphologicalEngine.validate_word`: normalize the word, then
dispatch on the truthiness of the `root` argument (`None` and the empty
string both select the all-roots search). -/
def validateWord (e : Engine) (word root : Str) : VRes :=
  let n := normalizeArabic word false true
  if root = [] then findMatchingRootAndPattern e n
  else validateAgainstRoot e n root

/-- `MorphologicalEngine.generate_word`, returning the optional result
dictionary and the engine after the call (the only mutation is
`add_derivative` on the found root node when the generated word
validates). -/
def generateWord (e : Engine) (root patternName : Str) :
    Option GenResult × Engine :=
  if ¬ (isValidRoot root = true) then (none, e)
  else
    match HashTable.search e.table patternName with
    | none => (none, e)
    | some data =>
      if data.template = [] then (none, e)
      else
        match applyPattern root data.template with
        | none => (none, e)
        | some w =>
          let valid := (validateWord e w root).isValid
          let e' :=
            if valid then
              match searchTree e.tree root with
              | some _ => Engine.mk (addDerivativeInTree e.tree root w patternName) e.table
              | none => e
            else e
          (some ⟨root, patternName, data.template, w, valid⟩, e')

/-- `search` followed by `get_derivatives` on the found node
(`get_root_statistics` / `export_results` access derivatives this way);
`[]` when the root is absent. -/
def derivativesOf (t : AVLTree) (k : Str) : List Deriv :=
  match searchTree t k with
  | some (.node _ _ d _ _ _) => d
  | _ => []

/-- A small concrete engine: the root كتب in the tree and the pattern
فاعل (template `1ا23`) in the table. -/
def engineKTB : Engine :=
  ⟨AVLTree.insert .leaf ['ك', 'ت', 'ب'],
   HashTable.insert (initTable PatternData) ['ف', 'ا', 'ع', 'ل'] ⟨['1', 'ا', '2', '3']⟩⟩

/-- C5: with فاعل (template `1ا23`) stored, `generate_word(كتب, فاعل)`
returns كاتب marked valid and records the derivative (كاتب, فاعل) with
frequency 1 on the كتب node; the second identical call returns the same
result and only bumps that derivative's frequency to 2. -/
theorem C5_generation_example :
    (generateWord engineKTB ['ك', 'ت', 'ب'] ['ف', 'ا', 'ع', 'ل']).1 =
      some ⟨['ك', 'ت', 'ب'], ['ف', 'ا', 'ع', 'ل'], ['1', 'ا', '2', '3'],
        ['ك', 'ا', 'ت', 'ب'], true⟩ ∧
    derivativesOf (generateWord engineKTB ['ك', 'ت', 'ب'] ['ف', 'ا', 'ع', 'ل']).2.tree
        ['ك', 'ت', 'ب'] =
      [⟨['ك', 'ا', 'ت', 'ب'], ['ف', 'ا', 'ع', 'ل'], 1⟩] ∧
    (generateWord (generateWord engineKTB ['ك', 'ت', 'ب'] ['ف', 'ا', 'ع', 'ل']).2
        ['ك', 'ت', 'ب'] ['ف', 'ا', 'ع', 'ل']).1 =
      some ⟨['ك', 'ت', 'ب'], ['ف', 'ا', 'ع', 'ل'], ['1', 'ا', '2', '3'],
        ['ك', 'ا', 'ت', 'ب'], true⟩ ∧
    derivativesOf (generateWord (generateWord engineKTB ['ك', 'ت', 'ب'] ['ف', 'ا', 'ع', 'ل']).2
        ['ك', 'ت', 'ب'] ['ف', 'ا', 'ع', 'ل']).2.tree ['ك', 'ت', 'ب'] =
      [⟨['ك', 'ا', 'ت', 'ب'], ['ف', 'ا', 'ع', 'ل'], 2⟩] := by decide

/-- C6 counterexample: the empty string is a root that is not stored,
yet `validate_word(كاتب, "")` takes the all-roots branch, tests
patterns and returns `is_valid = true`; and for the unstored invalid
root كت, `generate_word` returns `None` rather than a result carrying
`is_valid = false`. -/
theorem C6_counterexample :
    searchTree engineKTB.tree [] = none ∧
    (validateWord engineKTB ['ك', 'ا', 'ت', 'ب'] []).isValid = true ∧
    isValidRoot ['ك', 'ت'] = false ∧
    searchTree engineKTB.tree ['ك', 'ت'] = none ∧
    (generateWord engineKTB ['ك', 'ت'] ['ف', 'ا', 'ع', 'ل']).1 = none := by decide

/-- C6 amended: for a NON-EMPTY root not stored in the tree,
`validate_word` returns `is_valid = false` from one of the two early
returns that precede the pattern loop (invalid root, or root not found),
naming no pattern; `generate_word` for such a root leaves the engine
unchanged, and any result dictionary it returns carries
`is_valid = false`. -/
theorem C6_index_membership_gate (e : Engine) (word root pname : Str)
    (hr : root ≠ []) (hs : searchTree e.tree root = none) :
    ((validateWord e word root).isValid = false ∧
      (validateWord e word root).pattern = none ∧
      ((validateWord e word root).tag = .invalidRoot ∨
        (validateWord e word root).tag = .rootNotFound)) ∧
    (generateWord e root pname).2 = e ∧
    (∀ r, (generateWord e root pname).1 = some r → r.isValid = false) := by
  have hv : ∀ w, (validateWord e w root).isValid = false ∧
      (validateWord e w root).pattern = none ∧
      ((validateWord e w root).tag = .invalidRoot ∨
        (validateWord e w root).tag = .rootNotFound) := by
    intro w
    simp only [validateWord, validateAgainstRoot]
    rw [if_neg hr]
    by_cases hvr : isValidRoot root = true
    · rw [if_neg (not_not_intro hvr), hs]
      exact ⟨rfl, rfl, Or.inr rfl⟩
    · rw [if_pos hvr]
      exact ⟨rfl, rfl, Or.inl rfl⟩
  have hg : (generateWord e root pname).2 = e ∧
      (∀ r, (generateWord e root pname).1 = some r → r.isValid = false) := by
    simp only [generateWord]
    by_cases hvr : isValidRoot root = true
    · rw [if_neg (not_not_intro hvr)]
      cases hsea : HashTable.search e.table pname with
      | none => exact ⟨rfl, fun r h => nomatch h⟩
      | some data =>
        simp only []
        by_cases htpl : data.template = []
        · rw [if_pos htpl]
          exact ⟨rfl, fun r h => nomatch h⟩
        · rw [if_neg htpl]
          cases hap : applyPattern root data.template with
          | none => exact ⟨rfl, fun r h => nomatch h⟩
          | some w =>
            have hfalse := (hv w).1
            simp only []
            simp only [hfalse]
            constructor
            · rfl
            · intro r h
              injection h with h'
              subst h'
              rfl
    · rw [if_pos hvr]
      exact ⟨rfl, fun r h => nomatch h⟩
  exact ⟨hv word, hg.1, hg.2⟩

/-- C6 witness at the valid but unstored root درس against the engine
holding only كتب. -/
theorem C6_index_membership_gate_witness :
    ((validateWord engineKTB ['ك', 'ا', 'ت', 'ب'] ['د', 'ر', 'س']).isValid = false ∧
      (validateWord engineKTB ['ك', 'ا', 'ت', 'ب'] ['د', 'ر', 'س']).pattern = none ∧
      ((validateWord engineKTB ['ك', 'ا', 'ت', 'ب'] ['د', 'ر', 'س']).tag = .invalidRoot ∨
        (validateWord engineKTB ['ك', 'ا', 'ت', 'ب'] ['د', 'ر', 'س']).tag = .rootNotFound)) ∧
    (generateWord engineKTB ['د', 'ر', 'س'] ['ف', 'ا', 'ع', 'ل']).2 = engineKTB ∧
    (∀ r, (generateWord engineKTB ['د', 'ر', 'س'] ['ف', 'ا', 'ع', 'ل']).1 = some r →
      r.isValid = false) :=
  C6_index_membership_gate engineKTB ['ك', 'ا', 'ت', 'ب'] ['د', 'ر', 'س']
    ['ف', 'ا', 'ع', 'ل'] (by decide) (by decide)
